import Mathlib

/-!
# Compliant: chunks, the python multi-mapping and the assembly visitor

A shallow embedding of

* `AssemblyVisitor::chunk` (`Compliant_lib/AssemblyVisitor.h`),
* `PythonMultiMapping::assemble` and `PythonMultiMapping::apply`
  (`mapping/PythonMultiMapping.h`),
* the parts of `AssemblyVisitor` that are only declared in the header
  (`process`, `assemble`, `distribute_master`, `distribute_compliant`, `vector`),
  modelled from the specification.

Conventions.  A C++ `unsigned` is a natural number reduced modulo `2^32`
(`toUnsigned`); container sizes (`size_t`) are exact natural numbers.  A read
outside a container and a failed `assert` are faults (`Except Fault`).  The
scalar type `SReal` is an arbitrary type with a zero and decidable equality, so
that `if (value)` is the test `value ≠ 0`.
-/

set_option autoImplicit false
set_option linter.unusedSectionVars false
set_option linter.unusedVariables false

namespace Compliant

/-! ## Machine integers and loops -/

/-- Value of a natural number once it is stored in a C++ `unsigned` (32 bits). -/
def toUnsigned (n : Nat) : Nat := n % 4294967296

/-- What can go wrong in a call: an access outside a container, or the final `assert`. -/
inductive Fault where
  | outOfRange (index size : Nat)
  | assertion
  deriving DecidableEq, Repr

/-- Counted loop: `forLoop body count i s` runs `body i`, `body (i+1)`, ...,
`body (i+count-1)` on the state, stopping at the first fault.  It embeds
`for (unsigned i = 0; i < n; ++i) body` as `forLoop body n 0`. -/
def forLoop {σ : Type} (body : Nat → σ → Except Fault σ) : Nat → Nat → σ → Except Fault σ
  | 0, _, s => .ok s
  | count + 1, i, s =>
    match body i s with
    | .ok s' => forLoop body count (i + 1) s'
    | .error e => .error e

/-! ## Sparse blocks (`jacobian_type::CompressedMatrix`) -/

/-- A row-major sparse block being filled: its dimensions and the entries
`(row, column, value)` in the order of the `insertBack` calls. -/
structure Block (R : Type) where
  rows : Nat
  cols : Nat
  entries : List (Nat × Nat × R)

namespace Block

variable {R : Type}

/-- The calls `block.resize(rows, cols); block.setZero();`. -/
def resize (rows cols : Nat) : Block R := ⟨rows, cols, []⟩

/-- The assignment `block.insertBack(r, c) = x`. -/
def insertBack (b : Block R) (r c : Nat) (x : R) : Block R :=
  { b with entries := b.entries ++ [(r, c, x)] }

/-- Whether the block holds a stored entry at `(r, c)`. -/
def stored (b : Block R) (r c : Nat) : Bool :=
  b.entries.any (fun e => e.1 == r && e.2.1 == c)

/-- Coefficient `(r, c)` of the block: the stored value, or zero when nothing is stored. -/
def coeff [Zero R] (b : Block R) (r c : Nat) : R :=
  match b.entries.find? (fun e => e.1 == r && e.2.1 == c) with
  | some e => e.2.2
  | none => 0

/-- Number of stored entries (`nonZeros()`). -/
def nonZeros (b : Block R) : Nat := b.entries.length

end Block

/-! ## `AssemblyVisitor::chunk` -/

/-- Dense matrices of the visitor (`mat`), by dimensions and coefficients. -/
structure Mat (R : Type) where
  rows : Nat
  cols : Nat
  coeff : Nat → Nat → R

/-- The struct `chunk::mapped`. -/
structure Mapped (R : Type) where
  J : Mat R
  K : Mat R

/-- The struct `AssemblyVisitor::chunk`; `dofs_type*` handles are natural numbers and
`map` is the association list of the `std::map`. -/
structure chunk (R : Type) where
  offset : Nat
  size : Nat
  M : Mat R
  K : Mat R
  C : Mat R
  P : Mat R
  map : List (Nat × Mapped R)
  f : List R
  v : List R
  phi : List R
  lambda : List R
  damping : R
  mechanical : Bool
  vertex : Nat
  dofs : Nat

namespace chunk

variable {R : Type}

/-- `bool master() const { return mechanical && map.empty(); }` -/
def master (c : chunk R) : Bool := c.mechanical && c.map.isEmpty

/-- `bool compliant() const { return mechanical && phi.size(); }` -/
def compliant (c : chunk R) : Bool := c.mechanical && (c.phi.length != 0)

end chunk

/-! ## `PythonMultiMapping` -/

/-- What `assemble` sees of input `j`: `from(j)->getMatrixSize()` and `in[j].size()`. -/
structure Input where
  matrixSize : Nat
  size : Nat
  deriving DecidableEq, Repr

/-- State after a call of `assemble`: the Jacobian blocks it initialised, the
messages sent to `serr`, and whether it left through the size-mismatch `return`. -/
structure Outcome (R : Type) where
  jacobian : List (Block R)
  serr : List String
  early : Bool

/-- State after a call of `apply`: the output, the `value` data and the messages. -/
structure ApplyOutcome (V : Type) where
  out : List V
  value : List V
  serr : List String

namespace PythonMultiMapping

variable {R : Type} [Zero R] [DecidableEq R]

/-- The read `matrix[i]`. -/
def readMatrix (matrix : List R) (i : Nat) : Except Fault R :=
  match matrix[i]? with
  | some x => .ok x
  | none => .error (.outOfRange i matrix.length)

/-- Lines 76-87, the loop `for (unsigned j = 0, m = in.size(); j < m; ++j)` that resizes
and zeroes each block and accumulates `size += rows * cols`; it returns the blocks and
the final `size`. -/
def resizeBlocks (rows : Nat) : List Input → Nat → List (Block R) × Nat
  | [], size => ([], size)
  | inp :: rest, size =>
    let cols := toUnsigned inp.matrixSize
    let r := resizeBlocks rows rest (toUnsigned (size + toUnsigned (rows * cols)))
    (Block.resize rows cols :: r.1, r.2)

/-- Lines 121-125, `for (unsigned u = 0; u < in_deriv_size; ++u)`. -/
def dimLoop (ids : Nat) (matrix : List R) (off r k : Nat) (block : Block R) :
    Except Fault (Block R) :=
  forLoop (fun u b =>
    let c := toUnsigned (k * ids + u)
    match readMatrix matrix (toUnsigned (off + c)) with
    | .ok value => .ok (if value ≠ 0 then b.insertBack r c value else b)
    | .error e => .error e) ids 0 block

/-- Lines 118-126, `for (unsigned k = 0, p = in[j].size(); k < p; ++k)`. -/
def dofLoop (ids : Nat) (matrix : List R) (off r p : Nat) (block : Block R) :
    Except Fault (Block R) :=
  forLoop (fun k b => dimLoop ids matrix off r k b) p 0 block

/-- Lines 109-128, `for (unsigned j = 0, m = in.size(); j < m; ++j)`: the inputs and
their blocks are walked in step, `off` is advanced by `dim` after each input. -/
def inputLoop (ids : Nat) (matrix : List R) (r : Nat) :
    List Input → List (Block R) → Nat → Except Fault (List (Block R) × Nat)
  | [], blocks, off => .ok (blocks, off)
  | _ :: _, [], off => .ok ([], off)
  | inp :: ins, block :: blocks, off =>
    let dim := toUnsigned inp.matrixSize
    match dofLoop ids matrix off r (toUnsigned inp.size) block with
    | .error e => .error e
    | .ok block' =>
      match inputLoop ids matrix r ins blocks (toUnsigned (off + dim)) with
      | .error e => .error e
      | .ok st => .ok (block' :: st.1, st.2)

/-- Lines 106-130, `for (unsigned v = 0; v < out_deriv_size; ++v)` with
`r = out_deriv_size * i + v`. -/
def derivLoop (ods ids : Nat) (matrix : List R) (ins : List Input) (i : Nat)
    (st : List (Block R) × Nat) : Except Fault (List (Block R) × Nat) :=
  forLoop (fun v s => inputLoop ids matrix (toUnsigned (ods * i + v)) ins s.1 s.2) ods 0 st

/-- Lines 104-132, `for (unsigned i = 0, n = value.size(); i < n; ++i)`. -/
def outLoop (ods ids : Nat) (matrix : List R) (ins : List Input) (n : Nat)
    (st : List (Block R) × Nat) : Except Fault (List (Block R) × Nat) :=
  forLoop (fun i s => derivLoop ods ids matrix ins i s) n 0 st

/-- The inputs the loops `j < m` reach, `m` being `in.size()` stored in an `unsigned`. -/
def usedInputs (ins : List Input) : List Input := ins.take (toUnsigned ins.length)

/-- The variable `rows = value.size() * out_deriv_size`. -/
def rowsVar (ods : Nat) {V : Type} (value : List V) : Nat := toUnsigned (value.length * ods)

/-- The variable `size` when line 89 is reached. -/
def sizeVar (ods : Nat) {V : Type} (value : List V) (ins : List Input) : Nat :=
  (resizeBlocks (R := Unit) (rowsVar ods value) (usedInputs ins) 0).2

/-- `PythonMultiMapping::assemble`, lines 67-143.  `ods` and `ids` are the constants
`out_deriv_size` and `in_deriv_size`.  The calls `startVec` and `finalize` of the sparse
matrix library do not change the stored entries and have no counterpart here; the
blocks `j >= m` that the loops never reach are not part of the outcome. -/
def assemble (ods ids : Nat) {V : Type} (value : List V) (matrix : List R)
    (ins : List Input) : Except Fault (Outcome R) :=
  let rows := rowsVar ods value
  let init : List (Block R) × Nat := resizeBlocks rows (usedInputs ins) 0
  let size := init.2
  if matrix.length ≠ size then
    .ok { jacobian := init.1
          serr := if matrix.length ≠ 0 then
              ["assemble: incorrect jacobian size, treating as zero"] else []
          early := true }
  else
    match outLoop ods ids matrix (usedInputs ins) (toUnsigned value.length) (init.1, 0) with
    | .error e => .error e
    | .ok st =>
      if st.2 = matrix.length then
        .ok { jacobian := st.1, serr := [], early := false }
      else .error .assertion

/-- The call `value.resize(n)`: the first `min (size, n)` elements are kept, the
others are default-constructed. -/
def resizeVec {V : Type} [Inhabited V] (value : List V) (n : Nat) : List V :=
  value.take n ++ List.replicate (n - value.length) default

/-- `PythonMultiMapping::apply`, lines 146-161; `value` is the data as read at line 150,
after the python callback has run. -/
def apply {V : Type} [Inhabited V] (out value : List V) : Except Fault (ApplyOutcome V) :=
  let mismatch : Bool := out.length != value.length
  let value' := if mismatch then resizeVec value out.length else value
  let copied := forLoop (fun i (o : List V) =>
    match value'[i]? with
    | some x => if i < o.length then .ok (o.set i x) else .error (.outOfRange i o.length)
    | none => .error (.outOfRange i value'.length)) (toUnsigned out.length) 0 out
  match copied with
  | .error e => .error e
  | .ok out' =>
    .ok { out := out'
          value := value'
          serr := if mismatch then
              ["apply: size for data 'value' does not match output, auto-resizing"] else [] }

/-! ### Closed forms used to state what `assemble` computes -/

/-- Sum of the widths `from(j)->getMatrixSize()` of a list of inputs. -/
def sumDims (ins : List Input) : Nat := (ins.map (fun inp => inp.matrixSize)).sum

/-- Column offset of input `j` in a row of the concatenated blocks: the sum of the
widths of the inputs before it. -/
def colOffset (ins : List Input) (j : Nat) : Nat := sumDims (ins.take j)

/-- The entry that the element `matrix[off + c]` gives to row `r`, column `c`, if any. -/
def pick (matrix : List R) (off r c : Nat) : Option (Nat × Nat × R) :=
  match matrix[off + c]? with
  | some x => if x ≠ 0 then some (r, c, x) else none
  | none => none

/-- Entries that the elements `matrix[off], ..., matrix[off + w - 1]` give to row `r`. -/
def rowEntries (matrix : List R) (off r w : Nat) : List (Nat × Nat × R) :=
  (List.range w).filterMap (pick matrix off r)

/-- Entries of a block after `t` rows: the block starts at column offset `pre` of a
row of `total` elements and reads `w` elements of each row. -/
def specEntries (matrix : List R) (total pre w t : Nat) : List (Nat × Nat × R) :=
  (List.range t).flatMap (fun r => rowEntries matrix (r * total + pre) r w)

/-- Blocks of the inputs `ins` after `t` rows, the first input starting at column
offset `pre`. -/
def specBlocks (ids rows : Nat) (matrix : List R) (total t : Nat) :
    Nat → List Input → List (Block R)
  | _, [] => []
  | pre, inp :: rest =>
    ⟨rows, inp.matrixSize, specEntries matrix total pre (inp.size * ids) t⟩ ::
      specBlocks ids rows matrix total t (pre + inp.matrixSize) rest

/-- Effect of one pass of the loop over the inputs, for row `r`, when no read faults. -/
def appendRow (ids : Nat) (matrix : List R) (r : Nat) :
    List Input → List (Block R) → Nat → List (Block R)
  | [], blocks, _ => blocks
  | _ :: _, [], _ => []
  | inp :: ins, block :: blocks, off =>
    ⟨block.rows, block.cols, block.entries ++ rowEntries matrix off r (inp.size * ids)⟩ ::
      appendRow ids matrix r ins blocks (off + inp.matrixSize)

/-- No size of the call wraps in the 32-bit variables of `assemble`: the number of
inputs, each width, `rows = value.size() * out_deriv_size` and the expected size
`rows * (sum of the widths)` are all below `2^32`. -/
def Fits32 (ods n : Nat) (ins : List Input) : Prop :=
  ins.length < 4294967296 ∧ (∀ inp ∈ ins, inp.matrixSize < 4294967296) ∧
    n * ods < 4294967296 ∧ n * ods * sumDims ins < 4294967296

instance (ods n : Nat) (ins : List Input) : Decidable (Fits32 ods n ins) := by
  unfold Fits32; infer_instance

/-- Number of non-zero elements of `matrix`. -/
def countNonZero (matrix : List R) : Nat := matrix.countP (fun x => decide (x ≠ 0))

/-- Total number of stored entries over a list of blocks. -/
def totalNonZeros (blocks : List (Block R)) : Nat := (blocks.map Block.nonZeros).sum

/-! ### Properties claimed of `assemble` -/

/-- The call returns and its blocks are `matrix` read as the row-major layout of the
horizontally concatenated blocks: block `j` is `rows x cols_j` and its coefficient
`(r, c)` is `matrix[r * (sum of the widths) + (widths before j) + c]`. -/
def RowMajorLayout (ods ids : Nat) {V : Type} (value : List V) (matrix : List R)
    (ins : List Input) : Prop :=
  ∃ out, assemble ods ids value matrix ins = .ok out ∧
    ∀ (j : Nat) (inp : Input), ins[j]? = some inp → ∃ b : Block R, out.jacobian[j]? = some b ∧
      b.rows = value.length * ods ∧ b.cols = inp.matrixSize ∧
      ∀ r c, r < value.length * ods → c < inp.matrixSize →
        matrix[r * sumDims ins + colOffset ins j + c]? = some (b.coeff r c)

/-- The call returns through the size-mismatch branch, before the loops and the
`assert`, and every block `j` is `rows x cols_j` with nothing stored. -/
def ZeroJacobian (ods ids : Nat) {V : Type} (value : List V) (matrix : List R)
    (ins : List Input) : Prop :=
  ∃ out, assemble ods ids value matrix ins = .ok out ∧ out.early = true ∧
    ∀ (j : Nat) (inp : Input), ins[j]? = some inp → ∃ b : Block R, out.jacobian[j]? = some b ∧
      b.rows = value.length * ods ∧ b.cols = inp.matrixSize ∧ b.entries = []

/-- The call returns, no stored value is zero, block `j` holds an entry at `(r, c)`
exactly when the corresponding element of `matrix` is non-zero, and the blocks hold
as many entries as `matrix` has non-zero elements. -/
def StoresNonZeros (ods ids : Nat) {V : Type} (value : List V) (matrix : List R)
    (ins : List Input) : Prop :=
  ∃ out, assemble ods ids value matrix ins = .ok out ∧
    (∀ (j : Nat) (inp : Input), ins[j]? = some inp → ∃ b : Block R, out.jacobian[j]? = some b ∧
      (∀ e ∈ b.entries, e.2.2 ≠ 0) ∧
      ∀ r c, r < value.length * ods → c < inp.matrixSize →
        (b.stored r c = true ↔
          ∃ x, matrix[r * sumDims ins + colOffset ins j + c]? = some x ∧ x ≠ 0)) ∧
    totalNonZeros out.jacobian = countNonZero matrix

/-- The call returns without a fault, so every index used to read `matrix` was below
`matrix.size()` (a read outside is the fault `outOfRange`), and every entry passed to
`insertBack` lies inside the dimensions of its block. -/
def IndexSafe (ods ids : Nat) {V : Type} (value : List V) (matrix : List R)
    (ins : List Input) : Prop :=
  ∃ out, assemble ods ids value matrix ins = .ok out ∧ out.jacobian.length = ins.length ∧
    ∀ b ∈ out.jacobian, ∀ e ∈ b.entries, e.1 < b.rows ∧ e.2.1 < b.cols

/-- The call returns with `out` of unchanged length, `value` of the length of `out`
(unchanged when the lengths agreed, otherwise its first elements kept and the rest
default-constructed), and `out[i] = value[i]` for every `i` below that length. -/
def CopiesValue {V : Type} [Inhabited V] (out value : List V) : Prop :=
  ∃ res, apply out value = .ok res ∧ res.out.length = out.length ∧
    res.value.length = out.length ∧
    (value.length = out.length → res.value = value) ∧
    (∀ i : Nat, i < min value.length out.length → res.value[i]? = value[i]?) ∧
    (∀ i : Nat, value.length ≤ i → i < out.length → res.value[i]? = some default) ∧
    (∀ i : Nat, i < out.length → res.out[i]? = res.value[i]?) ∧
    (∀ i : Nat, i < min value.length out.length → res.out[i]? = value[i]?)

/-! ### Inputs at the 32-bit boundary -/

/-- A `value` of `65536` output dofs. -/
def wrapValue : List Unit := List.replicate 65536 ()

/-- One input state of width `65536`, with `65536` dofs of one coordinate. -/
def wrapInputs : List Input := [⟨65536, 65536⟩]

/-- An output of `2^32` coordinates, all zero. -/
def hugeOut : List Int := List.replicate 4294967296 0

/-- A `value` of `2^32` coordinates, all one. -/
def hugeValue : List Int := List.replicate 4294967296 1

/-- A `jacobian` of `2^32 = 65536 * 65536` elements, all equal to one. -/
def hugeMatrix : List Int := List.replicate 4294967296 1

end PythonMultiMapping


/-! ## `AssemblyVisitor`: the global processor and the gather/scatter of vectors

The header only declares `process`, `assemble`, `distribute_master`,
`distribute_compliant` and `vector`; their bodies are in a source file that is not
under `src/`.  They are modelled from the specification.  The handle of a state is
its index in the list of chunks.  The sizes `size_m`, `size_c` and the offsets are
`unsigned` in the header (lines 84, 155, 158-159): the running totals are reduced
modulo `2^32`.  `SReal` is a commutative ring with exact arithmetic.  An Eigen
segment outside its vector, or of another length than the vector assigned to it, is a
fault. -/

namespace Mat

variable {R : Type} [CommRing R]

/-- The zero matrix. -/
def zero (rows cols : Nat) : Mat R := ⟨rows, cols, fun _ _ => 0⟩

/-- Sum of two matrices of the same dimensions. -/
def add (A B : Mat R) : Mat R := ⟨A.rows, A.cols, fun r c => A.coeff r c + B.coeff r c⟩

/-- Matrix product `A * B`, for `A.cols = B.rows`. -/
def mul (A B : Mat R) : Mat R :=
  ⟨A.rows, B.cols,
    fun r c => Finset.sum (Finset.range A.cols) (fun k => A.coeff r k * B.coeff k c)⟩

/-- Selection matrix: `rows x cols`, with the identity placed at column offset `off`. -/
def selection (rows cols off : Nat) : Mat R :=
  ⟨rows, cols, fun r c => if r < rows ∧ c = off + r then 1 else 0⟩

end Mat

/-- The struct `AssemblyVisitor::process_type`: the sizes (`unsigned`), the full
Jacobian of each state (indexed by its handle) and the two offset tables, whose entries
are `(state, offset, width)` with `unsigned` offsets. -/
structure process_type (R : Type) where
  size_m : Nat
  size_c : Nat
  full : List (Mat R)
  master : List (Nat × Nat × Nat)
  compliant : List (Nat × Nat × Nat)

namespace AssemblyVisitor

variable {R : Type}

/-- Width of a master chunk: its field `size`, read as the `unsigned` it is declared. -/
def dim (c : chunk R) : Nat := toUnsigned c.size

/-- Width of a compliant chunk: the dimension of its `phi`, as an `unsigned`. -/
def phiSize (c : chunk R) : Nat := toUnsigned c.phi.length

/-- Modelled from the spec: the body of the offset allocation is missing.  "Appending
master-state Chunks to a master offset table and compliant-state Chunks to a separate
compliant offset table, in traversal order, each table's running total becoming
`size_m` / `size_c`": the selected chunks get consecutive offsets from `acc`, the
running total being an `unsigned`; `k` is the handle of the first chunk of the list. -/
def offsetTable (select : chunk R → Bool) (width : chunk R → Nat) :
    List (chunk R) → Nat → Nat → List (Nat × Nat × Nat)
  | [], _, _ => []
  | c :: cs, k, acc =>
    if select c then
      (k, acc, width c) :: offsetTable select width cs (k + 1) (toUnsigned (acc + width c))
    else offsetTable select width cs (k + 1) acc

/-- Modelled from the spec: the running total of an offset table, from `acc`, as the
`unsigned` it is stored in. -/
def tableTotal (select : chunk R → Bool) (width : chunk R → Nat) :
    List (chunk R) → Nat → Nat
  | [], acc => acc
  | c :: cs, acc =>
    tableTotal select width cs (if select c then toUnsigned (acc + width c) else acc)

/-- The sum of the widths of the selected chunks, without reduction: the running total
does not wrap when it is below `2^32`. -/
def exactTotal (select : chunk R → Bool) (width : chunk R → Nat) : List (chunk R) → Nat
  | [] => 0
  | c :: cs => (if select c then width c else 0) + exactTotal select width cs

/-- The global master column offset of state `k`: the running total of the widths of
the master chunks before it. -/
def masterOffset (chunks : List (chunk R)) (k : Nat) : Nat :=
  tableTotal chunk.master dim (chunks.take k) 0

/-- Offset of a state in an offset table (`0` for a state that is not in it): the
lookup in the `std::map`. -/
def lookupOffset (table : List (Nat × Nat × Nat)) (dofs : Nat) : Nat :=
  match table.find? (fun e => e.1 == dofs) with
  | some e => e.2.1
  | none => 0

/-- Modelled from the spec: the body of `process` is missing.  "`Full(B) = Σ_i J_{B,Ai}
· Full(Ai)`, identity/selection if `Ai` is master, accumulated (not overwritten)", "a
mapped state with zero inputs contributes an all-zero full Jacobian of the correct row
count", "evaluated in an order where every input's full Jacobian is already known":
the full Jacobian of state `k` is computed from those of its inputs, which are computed
first; `fuel` bounds the depth of the graph below `k`. -/
def fullRec [CommRing R] (size_m : Nat) (table : List (Nat × Nat × Nat))
    (chunks : List (chunk R)) : Nat → Nat → Mat R
  | 0, _ => Mat.zero 0 size_m
  | fuel + 1, k =>
    match chunks[k]? with
    | none => Mat.zero 0 size_m
    | some c =>
      if c.master then Mat.selection (dim c) size_m (lookupOffset table k)
      else c.map.foldl
        (fun acc p => acc.add (p.2.J.mul (fullRec size_m table chunks fuel p.1)))
        (Mat.zero (dim c) size_m)

/-- Modelled from the spec: `AssemblyVisitor::process`, declared at line 172: the two
offset tables, their totals, and the full Jacobian of every state. -/
def process [CommRing R] (chunks : List (chunk R)) : process_type R :=
  let master := offsetTable chunk.master dim chunks 0 0
  let size_m := tableTotal chunk.master dim chunks 0
  { size_m := size_m
    size_c := tableTotal chunk.compliant phiSize chunks 0
    full := (List.range chunks.length).map (fullRec size_m master chunks chunks.length)
    master := master
    compliant := offsetTable chunk.compliant phiSize chunks 0 0 }

/-- The full Jacobian that `process` returns for state `k`. -/
def fullJacobian [CommRing R] (chunks : List (chunk R)) (k : Nat) : Mat R :=
  (process chunks).full.getD k (Mat.zero 0 (process chunks).size_m)

/-- The assembly graph is acyclic: its states can be ranked below the number of states
so that every input of a state has a smaller rank than the state. -/
def Acyclic (chunks : List (chunk R)) : Prop :=
  ∃ rank : Nat → Nat, ∀ (k : Nat) (c : chunk R), chunks[k]? = some c →
    rank k < chunks.length ∧ ∀ p ∈ c.map, rank p.1 < rank k

/-- A decidable sufficient condition for `Acyclic`: the chunks are listed in a
topological order, every input of the chunk with handle `k` has a handle below `k`. -/
def ordered : Nat → List (chunk R) → Bool
  | _, [] => true
  | k, c :: cs => c.map.all (fun p => decide (p.1 < k)) && ordered (k + 1) cs

/-- A chunk given by its dimension, its `mechanical` flag, its `map` and its `phi`;
the other fields are empty. -/
def simpleChunk [CommRing R] (size : Nat) (mechanical : Bool) (map : List (Nat × Mapped R))
    (phi : List R) : chunk R :=
  { offset := 0, size := size, M := Mat.zero 0 0, K := Mat.zero 0 0, C := Mat.zero 0 0,
    P := Mat.zero 0 0, map := map, f := [], v := [], phi := phi, lambda := [], damping := 0,
    mechanical := mechanical, vertex := 0, dofs := 0 }

/-- The vectors of the mechanical states, by state handle and vector id (the host's
storage, reached through `vector`). -/
abbrev Store (R : Type) := Nat → Nat → List R

/-- Modelled from the spec: the body of the getter `vector(dofs, id)` is missing; it
"returns a copy of the state's current data for a named vector id". -/
def vectorGet (store : Store R) (dofs id : Nat) : List R := store dofs id

/-- Modelled from the spec: the body of the setter `vector(dofs, id, data)` is missing;
it "writes a supplied sub-range back, of exactly that dimension". -/
def vectorSet (store : Store R) (dofs id : Nat) (data : List R) : Store R :=
  fun d i => if d = dofs ∧ i = id then data else store d i

/-- The segment `data.segment(off, size)`; a fault when it leaves `data`. -/
def segment (data : List R) (off size : Nat) : Except Fault (List R) :=
  if off + size ≤ data.length then .ok ((data.drop off).take size)
  else .error (.outOfRange (off + size) data.length)

/-- The assignment `res.segment(off, size) = data`; a fault when the segment leaves
`res` or `data` has another length. -/
def writeSegment (res : List R) (off size : Nat) (data : List R) : Except Fault (List R) :=
  if data.length = size ∧ off + size ≤ res.length then
    .ok (res.take off ++ data ++ res.drop (off + size))
  else .error (.outOfRange (off + size) res.length)

/-- The gather loop over an offset table, from the vector `res`. -/
def gatherFrom (store : Store R) (id : Nat) :
    List (Nat × Nat × Nat) → List R → Except Fault (List R)
  | [], res => .ok res
  | e :: es, res =>
    match writeSegment res e.2.1 e.2.2 (vectorGet store e.1 id) with
    | .ok r => gatherFrom store id es r
    | .error f => .error f

/-- Modelled from the spec: the body of `assemble` is missing.  The gather of a global
vector: "concatenate each master Chunk's local force/velocity vectors at its offset"
(and each compliant chunk's vectors at its compliant offset).  A chunk's local vector
is the copy of the state's vector that the getter `vector(dofs, id)` returns when the
visitor fills the chunk, so the gather reads it through `vectorGet`; `total` is
`size_m` (resp. `size_c`). -/
def gather [Zero R] (store : Store R) (id : Nat) (table : List (Nat × Nat × Nat))
    (total : Nat) : Except Fault (List R) :=
  gatherFrom store id table (List.replicate total 0)

/-- Modelled from the spec: the bodies of `distribute_master` and `distribute_compliant`
are missing: "scatter a size_m (resp. size_c) vector back into each relevant state's
local storage at the named vector slot, using the same offsets". -/
def distribute (id : Nat) (data : List R) :
    List (Nat × Nat × Nat) → Store R → Except Fault (Store R)
  | [], store => .ok store
  | e :: es, store =>
    match segment data e.2.1 e.2.2 with
    | .ok seg => distribute id data es (vectorSet store e.1 id seg)
    | .error f => .error f

/-- Modelled from the spec: `distribute_master (id, data)`, declared at line 63. -/
def distribute_master [CommRing R] (chunks : List (chunk R)) (store : Store R) (id : Nat)
    (data : List R) : Except Fault (Store R) :=
  distribute id data (process chunks).master store

/-- Modelled from the spec: `distribute_compliant (id, data)`, declared at line 66. -/
def distribute_compliant [CommRing R] (chunks : List (chunk R)) (store : Store R) (id : Nat)
    (data : List R) : Except Fault (Store R) :=
  distribute id data (process chunks).compliant store

/-- Modelled from the spec: the gather of the master vectors done by `assemble`. -/
def gather_master [CommRing R] (chunks : List (chunk R)) (store : Store R) (id : Nat) :
    Except Fault (List R) :=
  gather store id (process chunks).master (process chunks).size_m

/-- Modelled from the spec: the gather of the compliant vectors done by `assemble`. -/
def gather_compliant [CommRing R] (chunks : List (chunk R)) (store : Store R) (id : Nat) :
    Except Fault (List R) :=
  gather store id (process chunks).compliant (process chunks).size_c

/-- The store is populated: each state of the table holds, in slot `id`, a vector of
the width the table gives it. -/
def populated (store : Store R) (id : Nat) (table : List (Nat × Nat × Nat)) : Prop :=
  ∀ e ∈ table, (vectorGet store e.1 id).length = e.2.2

/-- Position `p` of the global vector lies in the segment of some entry of the table. -/
def covered (table : List (Nat × Nat × Nat)) (p : Nat) : Prop :=
  ∃ e ∈ table, e.2.1 ≤ p ∧ p < e.2.1 + e.2.2

/-- The matrix with the given rows. -/
def matOfRows [CommRing R] (rows : List (List R)) : Mat R :=
  ⟨rows.length, (rows.headD []).length, fun r c => (rows.getD r []).getD c 0⟩

/-- The edge Jacobian `Jab = [[1, 2], [3, 4]]` of the synthetic chain. -/
def chainJab : Mapped Int := ⟨matOfRows [[1, 2], [3, 4]], Mat.zero 0 0⟩

/-- The edge Jacobian `Jbc = [[0, 1], [1, 1]]` of the synthetic chain. -/
def chainJbc : Mapped Int := ⟨matOfRows [[0, 1], [1, 1]], Mat.zero 0 0⟩

/-- The synthetic chain `A → B → C` of three states of dimension 2, `A` master, with one
more master state of dimension 1, listed as `C`, the other master state, `B`, `A`: the
global master column offset of `A` is 1. -/
def chainChunks : List (chunk Int) :=
  [simpleChunk 2 true [(2, chainJbc)] [], simpleChunk 1 true [] [],
    simpleChunk 2 true [(3, chainJab)] [], simpleChunk 2 true [] []]

/-- A master state of dimension 2, a compliant state of dimension 1 mapped from it,
and a master state of dimension 1. -/
def sampleChunks : List (chunk Int) :=
  [simpleChunk 2 true [] [],
    simpleChunk 1 true [(0, ⟨⟨1, 2, fun _ c => if c = 0 then 1 else 0⟩, Mat.zero 0 0⟩)] [5],
    simpleChunk 1 true [] []]

/-- Vectors of the three states of `sampleChunks`, the same in every slot. -/
def sampleStore : Store Int :=
  fun d _ => if d = 0 then [1, 2] else if d = 1 then [5] else [3]

end AssemblyVisitor

/-! ## Theorems -/

open PythonMultiMapping AssemblyVisitor

section Loops

variable {σ : Type}

theorem forLoop_zero (body : Nat → σ → Except Fault σ) (i : Nat) (s : σ) :
    forLoop body 0 i s = .ok s := rfl

theorem forLoop_succ_ok (body : Nat → σ → Except Fault σ) (count i : Nat) (s s' : σ)
    (h : body i s = .ok s') :
    forLoop body (count + 1) i s = forLoop body count (i + 1) s' := by
  simp [forLoop, h]

theorem forLoop_succ_error (body : Nat → σ → Except Fault σ) (count i : Nat) (s : σ)
    (e : Fault) (h : body i s = .error e) :
    forLoop body (count + 1) i s = .error e := by
  simp [forLoop, h]

/-- Total correctness of a counted loop from an invariant whose step never faults. -/
theorem forLoop_total (body : Nat → σ → Except Fault σ) (P : Nat → σ → Prop) :
    ∀ (count i : Nat) (s : σ), P i s →
      (∀ k t, i ≤ k → k < i + count → P k t → ∃ t', body k t = .ok t' ∧ P (k + 1) t') →
      ∃ s', forLoop body count i s = .ok s' ∧ P (i + count) s' := by
  intro count
  induction count with
  | zero => intro i s h _; exact ⟨s, rfl, by simpa using h⟩
  | succ n ih =>
    intro i s h step
    obtain ⟨t', hb, hP⟩ := step i s (Nat.le_refl i) (by omega) h
    obtain ⟨s', hs, hP'⟩ := ih (i + 1) t' hP (fun k t hk hlt hPk =>
      step k t (by omega) (by omega) hPk)
    refine ⟨s', ?_, ?_⟩
    · rw [forLoop_succ_ok body n i s t' hb]; exact hs
    · have e : i + (n + 1) = i + 1 + n := by omega
      rw [e]; exact hP'

/-- Partial correctness of a counted loop: an invariant kept by every step that
returns holds of the final state whenever the loop returns. -/
theorem forLoop_partial (body : Nat → σ → Except Fault σ) (P : Nat → σ → Prop) :
    ∀ (count i : Nat) (s s' : σ), P i s →
      (∀ k t t', i ≤ k → k < i + count → P k t → body k t = .ok t' → P (k + 1) t') →
      forLoop body count i s = .ok s' → P (i + count) s' := by
  intro count
  induction count with
  | zero =>
    intro i s s' h _ hl
    simp [forLoop] at hl
    subst hl
    simpa using h
  | succ n ih =>
    intro i s s' h step hl
    cases hb : body i s with
    | error e => rw [forLoop_succ_error body n i s e hb] at hl; cases hl
    | ok t' =>
      rw [forLoop_succ_ok body n i s t' hb] at hl
      have hP := step i s t' (Nat.le_refl i) (by omega) h hb
      have := ih (i + 1) t' s' hP (fun k t t'' hk hlt hPk hbk =>
        step k t t'' (by omega) (by omega) hPk hbk) hl
      have e : i + (n + 1) = i + 1 + n := by omega
      rw [e]; exact this

end Loops

section Unsigned

theorem toUnsigned_of_lt {n : Nat} (h : n < 4294967296) : toUnsigned n = n :=
  Nat.mod_eq_of_lt h

theorem toUnsigned_lt (n : Nat) : toUnsigned n < 4294967296 :=
  Nat.mod_lt n (by decide)

theorem toUnsigned_add_left (a b : Nat) : toUnsigned (toUnsigned a + b) = toUnsigned (a + b) := by
  unfold toUnsigned; omega

theorem toUnsigned_add_right (a b : Nat) : toUnsigned (a + toUnsigned b) = toUnsigned (a + b) := by
  unfold toUnsigned; omega

theorem toUnsigned_mul_left (a b : Nat) : toUnsigned (toUnsigned a * b) = toUnsigned (a * b) := by
  unfold toUnsigned; rw [Nat.mul_mod, Nat.mod_mod, ← Nat.mul_mod]

theorem toUnsigned_mul_right (a b : Nat) : toUnsigned (a * toUnsigned b) = toUnsigned (a * b) := by
  unfold toUnsigned; rw [Nat.mul_mod, Nat.mod_mod, ← Nat.mul_mod]

end Unsigned


/-- C1: `master()` holds exactly when the chunk is mechanical with an empty `map`,
`compliant()` exactly when it is mechanical with a `phi` of non-zero length; a chunk
that is not mechanical is neither. -/
theorem chunk_master_compliant {R : Type} (c : chunk R) :
    (c.master = true ↔ (c.mechanical = true ∧ c.map = [])) ∧
    (c.compliant = true ↔ (c.mechanical = true ∧ c.phi.length ≠ 0)) ∧
    (c.mechanical = false → c.master = false ∧ c.compliant = false) := by
  refine ⟨?_, ?_, ?_⟩
  · simp [chunk.master, List.isEmpty_iff]
  · simp [chunk.compliant]
  · intro h
    simp [chunk.master, chunk.compliant, h]

namespace PythonMultiMapping

variable {R : Type} [Zero R] [DecidableEq R]

theorem readMatrix_ok_iff (matrix : List R) (i : Nat) :
    (∃ x, readMatrix matrix i = .ok x) ↔ i < matrix.length := by
  unfold readMatrix
  constructor
  · intro h
    by_contra hlt
    have hn : matrix[i]? = none := List.getElem?_eq_none (by omega)
    rw [hn] at h
    obtain ⟨x, hx⟩ := h
    cases hx
  · intro h
    rw [List.getElem?_eq_getElem h]
    exact ⟨_, rfl⟩

theorem rowEntries_succ (matrix : List R) (off r w : Nat) :
    rowEntries matrix off r (w + 1) =
      rowEntries matrix off r w ++ (pick matrix off r w).toList := by
  unfold rowEntries
  rw [List.range_succ, List.filterMap_append]
  cases h : pick matrix off r w <;> simp [List.filterMap, h]

/-- One step of the innermost loop, when the read is in range and nothing wraps. -/
theorem dimStep (matrix : List R) (off r c : Nat) (b : Block R)
    (hc : off + c < matrix.length) (hm : matrix.length ≤ 4294967296) :
    ∃ b', (match readMatrix matrix (toUnsigned (off + toUnsigned c)) with
        | .ok value => Except.ok (if value ≠ 0 then b.insertBack r (toUnsigned c) value else b)
        | .error e => Except.error e) = Except.ok b' ∧
      b' = ⟨b.rows, b.cols, b.entries ++ (pick matrix off r c).toList⟩ := by
  have h1 : toUnsigned c = c := toUnsigned_of_lt (by omega)
  have h2 : toUnsigned (off + c) = off + c := toUnsigned_of_lt (by omega)
  rw [h1, h2]
  unfold readMatrix pick
  rw [List.getElem?_eq_getElem hc]
  by_cases hx : matrix[off + c] = 0
  · simp [hx]
  · simp [hx, Block.insertBack]

/-- The loop over the dimensions of dof `k` appends the entries of the elements
`k * ids, ..., k * ids + ids - 1` of the row segment. -/
theorem dimLoop_closed (ids : Nat) (matrix : List R) (off r k : Nat) (rw cl : Nat)
    (e0 : List (Nat × Nat × R))
    (hc : off + (k + 1) * ids ≤ matrix.length) (hm : matrix.length ≤ 4294967296) :
    dimLoop ids matrix off r k ⟨rw, cl, e0 ++ rowEntries matrix off r (k * ids)⟩ =
      .ok ⟨rw, cl, e0 ++ rowEntries matrix off r ((k + 1) * ids)⟩ := by
  unfold dimLoop
  obtain ⟨s', hs, hP⟩ := forLoop_total _
    (fun u (b : Block R) => b = ⟨rw, cl, e0 ++ rowEntries matrix off r (k * ids + u)⟩)
    ids 0 ⟨rw, cl, e0 ++ rowEntries matrix off r (k * ids)⟩ (by simp)
    (by
      intro u t _ hu ht
      have hlt : off + (k * ids + u) < matrix.length := by
        have : (k + 1) * ids = k * ids + ids := by ring
        omega
      obtain ⟨b', hb, hb'⟩ := dimStep matrix off r (k * ids + u) t hlt hm
      refine ⟨b', hb, ?_⟩
      rw [hb', ht]
      simp only [Block.mk.injEq, true_and]
      rw [← Nat.add_assoc, rowEntries_succ, List.append_assoc])
  rw [hs, hP]
  have : k * ids + (0 + ids) = (k + 1) * ids := by ring
  rw [this]

/-- The loop over the dofs of an input appends the entries of the first `p * ids`
elements of the row segment. -/
theorem dofLoop_closed (ids : Nat) (matrix : List R) (off r p : Nat) (b : Block R)
    (hc : off + p * ids ≤ matrix.length) (hm : matrix.length ≤ 4294967296) :
    dofLoop ids matrix off r p b =
      .ok ⟨b.rows, b.cols, b.entries ++ rowEntries matrix off r (p * ids)⟩ := by
  unfold dofLoop
  obtain ⟨s', hs, hP⟩ := forLoop_total (fun k b => dimLoop ids matrix off r k b)
    (fun k (t : Block R) => t = ⟨b.rows, b.cols, b.entries ++ rowEntries matrix off r (k * ids)⟩)
    p 0 b (by simp [rowEntries])
    (by
      intro k t _ hk ht
      refine ⟨_, ?_, rfl⟩
      rw [ht]
      apply dimLoop_closed
      · have : (k + 1) * ids ≤ p * ids := Nat.mul_le_mul_right ids (by omega)
        omega
      · exact hm)
  rw [hs, hP]
  simp

/-- With `in_deriv_size = 0` the loop over the dofs leaves the block as it is. -/
theorem dofLoop_ids_zero (matrix : List R) (off r p : Nat) (b : Block R) :
    dofLoop 0 matrix off r p b = .ok b := by
  unfold dofLoop
  obtain ⟨s', hs, hP⟩ := forLoop_total (fun k b => dimLoop 0 matrix off r k b)
    (fun _ (t : Block R) => t = b) p 0 b rfl
    (by
      intro k t _ _ ht
      exact ⟨t, by simp [dimLoop, forLoop], ht⟩)
  rw [hs, hP]

theorem sumDims_cons (inp : Input) (ins : List Input) :
    sumDims (inp :: ins) = inp.matrixSize + sumDims ins := by
  simp [sumDims]

theorem sumDims_nil : sumDims [] = 0 := rfl

/-- One pass of the loop over the inputs, when every read is in range and nothing wraps. -/
theorem inputLoop_closed (ids : Nat) (matrix : List R) (r : Nat)
    (hm : matrix.length < 4294967296) :
    ∀ (ins : List Input) (bs : List (Block R)) (off : Nat),
      bs.length = ins.length →
      (∀ inp ∈ ins, inp.size * ids ≤ inp.matrixSize) →
      off + sumDims ins ≤ matrix.length →
      inputLoop ids matrix r ins bs off =
        .ok (appendRow ids matrix r ins bs off, off + sumDims ins) := by
  intro ins
  induction ins with
  | nil =>
    intro bs off _ _ _
    simp [inputLoop, appendRow, sumDims_nil]
  | cons inp ins ih =>
    intro bs off hlen hin hoff
    cases bs with
    | nil => simp at hlen
    | cons b bs =>
      rw [sumDims_cons] at hoff
      have hle : inp.size * ids ≤ inp.matrixSize := hin inp (List.mem_cons_self _ _)
      have hdim : toUnsigned inp.matrixSize = inp.matrixSize := toUnsigned_of_lt (by omega)
      have hoff' : toUnsigned (off + inp.matrixSize) = off + inp.matrixSize :=
        toUnsigned_of_lt (by omega)
      have hdof : dofLoop ids matrix off r (toUnsigned inp.size) b =
          .ok ⟨b.rows, b.cols, b.entries ++ rowEntries matrix off r (inp.size * ids)⟩ := by
        rcases Nat.eq_zero_or_pos ids with h0 | hpos
        · subst h0
          rw [dofLoop_ids_zero]
          simp [rowEntries]
        · have hsz : inp.size ≤ inp.size * ids := Nat.le_mul_of_pos_right _ hpos
          have hp : toUnsigned inp.size = inp.size := toUnsigned_of_lt (by omega)
          rw [hp]
          exact dofLoop_closed ids matrix off r inp.size b (by omega) (by omega)
      have hrest := ih bs (off + inp.matrixSize) (by simpa using hlen)
        (fun x hx => hin x (List.mem_cons_of_mem _ hx)) (by omega)
      simp only [inputLoop, hdim, hdof, hoff', hrest, appendRow, sumDims_cons]
      simp [Nat.add_assoc]

theorem specBlocks_length (ids rows : Nat) (matrix : List R) (total t : Nat) :
    ∀ (ins : List Input) (pre : Nat),
      (specBlocks ids rows matrix total t pre ins).length = ins.length := by
  intro ins
  induction ins with
  | nil => intro pre; rfl
  | cons inp ins ih => intro pre; simp [specBlocks, ih]

theorem specEntries_zero (matrix : List R) (total pre w : Nat) :
    specEntries matrix total pre w 0 = [] := by
  simp [specEntries]

theorem specEntries_succ (matrix : List R) (total pre w t : Nat) :
    specEntries matrix total pre w (t + 1) =
      specEntries matrix total pre w t ++ rowEntries matrix (t * total + pre) t w := by
  simp [specEntries, List.range_succ, List.flatMap_append]

/-- Appending row `t` to the blocks after `t` rows gives the blocks after `t + 1` rows. -/
theorem appendRow_spec (ids rows : Nat) (matrix : List R) (total t : Nat) :
    ∀ (ins : List Input) (pre : Nat),
      appendRow ids matrix t ins (specBlocks ids rows matrix total t pre ins) (t * total + pre) =
        specBlocks ids rows matrix total (t + 1) pre ins := by
  intro ins
  induction ins with
  | nil => intro pre; rfl
  | cons inp ins ih =>
    intro pre
    simp only [specBlocks, appendRow]
    rw [specEntries_succ, Nat.add_assoc, ih]

/-- The resizing loop, when nothing wraps: empty blocks and `size = rows * sum of widths`. -/
theorem resizeBlocks_closed (ids rows : Nat) (matrix : List R) (total : Nat) :
    ∀ (ins : List Input) (size pre : Nat),
      (∀ inp ∈ ins, inp.matrixSize < 4294967296) →
      size + rows * sumDims ins < 4294967296 →
      resizeBlocks rows ins size =
        (specBlocks ids rows matrix total 0 pre ins, size + rows * sumDims ins) := by
  intro ins
  induction ins with
  | nil => intro size pre _ _; simp [resizeBlocks, specBlocks, sumDims_nil]
  | cons inp ins ih =>
    intro size pre hb hs
    rw [sumDims_cons, Nat.mul_add] at hs
    have hdim : toUnsigned inp.matrixSize = inp.matrixSize :=
      toUnsigned_of_lt (hb inp (List.mem_cons_self _ _))
    have h1 : toUnsigned (rows * inp.matrixSize) = rows * inp.matrixSize :=
      toUnsigned_of_lt (by omega)
    have h2 : toUnsigned (size + rows * inp.matrixSize) = size + rows * inp.matrixSize :=
      toUnsigned_of_lt (by omega)
    have hrest := ih (size + rows * inp.matrixSize) (pre + inp.matrixSize)
      (fun x hx => hb x (List.mem_cons_of_mem _ hx)) (by omega)
    simp only [resizeBlocks, hdim, h1, h2, hrest, specBlocks, specEntries_zero, Block.resize,
      sumDims_cons, Nat.mul_add, Nat.add_assoc]

/-- The loop over `v` for output dof `i`, when every read is in range and nothing wraps. -/
theorem derivLoop_closed (ods ids rows : Nat) (matrix : List R) (ins : List Input) (i : Nat)
    (hm : matrix.length < 4294967296)
    (hin : ∀ inp ∈ ins, inp.size * ids ≤ inp.matrixSize)
    (hr : (i + 1) * ods ≤ 4294967296)
    (hlen : (i + 1) * ods * sumDims ins ≤ matrix.length) :
    derivLoop ods ids matrix ins i
        (specBlocks ids rows matrix (sumDims ins) (i * ods) 0 ins, i * ods * sumDims ins) =
      .ok (specBlocks ids rows matrix (sumDims ins) ((i + 1) * ods) 0 ins,
        (i + 1) * ods * sumDims ins) := by
  unfold derivLoop
  obtain ⟨s', hs, hP⟩ := forLoop_total
    (fun v (s : List (Block R) × Nat) =>
      inputLoop ids matrix (toUnsigned (ods * i + v)) ins s.1 s.2)
    (fun v s => s = (specBlocks ids rows matrix (sumDims ins) (i * ods + v) 0 ins,
      (i * ods + v) * sumDims ins))
    ods 0 (specBlocks ids rows matrix (sumDims ins) (i * ods) 0 ins, i * ods * sumDims ins)
    (by simp)
    (by
      intro v s _ hv hs
      have hexp : (i + 1) * ods = i * ods + ods := by ring
      have hrow : toUnsigned (ods * i + v) = i * ods + v := by
        rw [Nat.mul_comm ods i]
        exact toUnsigned_of_lt (by omega)
      have hstep : (i * ods + v + 1) * sumDims ins ≤ matrix.length :=
        le_trans (Nat.mul_le_mul_right _ (by omega)) hlen
      have hsucc : (i * ods + v + 1) * sumDims ins =
          (i * ods + v) * sumDims ins + sumDims ins := by ring
      refine ⟨_, ?_, rfl⟩
      rw [hs]
      beta_reduce
      rw [hrow]
      simp only
      rw [inputLoop_closed ids matrix (i * ods + v) hm ins _ _
        (specBlocks_length ids rows matrix _ _ ins 0) hin (by omega)]
      have := appendRow_spec ids rows matrix (sumDims ins) (i * ods + v) ins 0
      rw [Nat.add_zero] at this
      rw [this, ← hsucc, Nat.add_assoc])
  rw [hs, hP]
  have : i * ods + (0 + ods) = (i + 1) * ods := by ring
  rw [this]

/-- The loop over the output dofs, when every read is in range and nothing wraps. -/
theorem outLoop_closed (ods ids rows : Nat) (matrix : List R) (ins : List Input) (n : Nat)
    (hm : matrix.length < 4294967296)
    (hin : ∀ inp ∈ ins, inp.size * ids ≤ inp.matrixSize)
    (hr : n * ods ≤ 4294967296)
    (hlen : n * ods * sumDims ins ≤ matrix.length) :
    outLoop ods ids matrix ins n (specBlocks ids rows matrix (sumDims ins) 0 0 ins, 0) =
      .ok (specBlocks ids rows matrix (sumDims ins) (n * ods) 0 ins,
        n * ods * sumDims ins) := by
  unfold outLoop
  obtain ⟨s', hs, hP⟩ := forLoop_total
    (fun i (s : List (Block R) × Nat) => derivLoop ods ids matrix ins i s)
    (fun i s => s = (specBlocks ids rows matrix (sumDims ins) (i * ods) 0 ins,
      i * ods * sumDims ins))
    n 0 (specBlocks ids rows matrix (sumDims ins) 0 0 ins, 0) (by simp)
    (by
      intro i s _ hi hs
      have hle : (i + 1) * ods ≤ n * ods := Nat.mul_le_mul_right _ (by omega)
      refine ⟨_, ?_, rfl⟩
      rw [hs]
      exact derivLoop_closed ods ids rows matrix ins i hm hin (by omega)
        (le_trans (Nat.mul_le_mul_right _ hle) hlen))
  rw [hs, hP]
  simp

theorem resizeBlocks_snd (rows : Nat) :
    ∀ (ins : List Input) (size : Nat),
      (resizeBlocks (R := R) rows ins size).2 = (resizeBlocks (R := Unit) rows ins size).2 := by
  intro ins
  induction ins with
  | nil => intro size; rfl
  | cons inp ins ih => intro size; simp only [resizeBlocks]; exact ih _

theorem usedInputs_of_lt (ins : List Input) (h : ins.length < 4294967296) :
    usedInputs ins = ins := by
  unfold usedInputs
  rw [toUnsigned_of_lt h, List.take_length]

/-- When nothing wraps, the variable `size` is the expected size. -/
theorem sizeVar_of_fits (ods : Nat) {V : Type} (value : List V) (ins : List Input)
    (hfit : Fits32 ods value.length ins) :
    sizeVar ods value ins = value.length * ods * sumDims ins := by
  obtain ⟨h1, h2, h3, h4⟩ := hfit
  unfold sizeVar rowsVar
  rw [usedInputs_of_lt ins h1, toUnsigned_of_lt h3,
    resizeBlocks_closed 0 (value.length * ods) ([] : List Unit) 0 ins 0 0 h2 (by omega)]
  simp

/-- Closed form of `assemble`: when nothing wraps, every input has at most as many
derivative coordinates as its width and `matrix` has the expected size, the call
returns the blocks `specBlocks` after all `rows` rows, with no message. -/
theorem assemble_closed (ods ids : Nat) {V : Type} (value : List V) (matrix : List R)
    (ins : List Input) (hfit : Fits32 ods value.length ins)
    (hin : ∀ inp ∈ ins, inp.size * ids ≤ inp.matrixSize)
    (hsize : matrix.length = value.length * ods * sumDims ins) :
    assemble ods ids value matrix ins =
      .ok { jacobian := specBlocks ids (value.length * ods) matrix (sumDims ins)
              (value.length * ods) 0 ins
            serr := []
            early := false } := by
  obtain ⟨h1, h2, h3, h4⟩ := hfit
  have hn : toUnsigned value.length * ods = value.length * ods := by
    rcases Nat.eq_zero_or_pos ods with h0 | hpos
    · subst h0; simp
    · have : value.length ≤ value.length * ods := Nat.le_mul_of_pos_right _ hpos
      rw [toUnsigned_of_lt (by omega)]
  have hinit := resizeBlocks_closed ids (value.length * ods) matrix (sumDims ins) ins 0 0 h2
    (by omega)
  have hloop := outLoop_closed ods ids (value.length * ods) matrix ins
    (toUnsigned value.length) (by omega) hin (by omega) (by rw [hn]; omega)
  unfold assemble rowsVar
  simp only [usedInputs_of_lt ins h1, toUnsigned_of_lt h3, hinit, Nat.zero_add, hloop, hn]
  simp [hsize]

theorem colOffset_zero (ins : List Input) : colOffset ins 0 = 0 := by
  simp [colOffset, sumDims]

theorem colOffset_succ (inp : Input) (ins : List Input) (j : Nat) :
    colOffset (inp :: ins) (j + 1) = inp.matrixSize + colOffset ins j := by
  simp [colOffset, sumDims]

/-- The column offset of an input plus its width is at most the sum of all widths. -/
theorem colOffset_add_le (ins : List Input) :
    ∀ (j : Nat) (inp : Input), ins[j]? = some inp →
      colOffset ins j + inp.matrixSize ≤ sumDims ins := by
  induction ins with
  | nil => intro j inp h; simp at h
  | cons x xs ih =>
    intro j inp h
    cases j with
    | zero =>
      simp at h
      subst h
      rw [colOffset_zero, sumDims_cons]
      omega
    | succ j =>
      simp at h
      have := ih j inp h
      rw [colOffset_succ, sumDims_cons]
      omega

/-- Block `j` of `specBlocks`: its dimensions and its entries. -/
theorem specBlocks_getElem (ids rows : Nat) (matrix : List R) (total t : Nat) :
    ∀ (ins : List Input) (pre j : Nat) (inp : Input), ins[j]? = some inp →
      (specBlocks ids rows matrix total t pre ins)[j]? =
        some ⟨rows, inp.matrixSize,
          specEntries matrix total (pre + colOffset ins j) (inp.size * ids) t⟩ := by
  intro ins
  induction ins with
  | nil => intro pre j inp h; simp at h
  | cons x xs ih =>
    intro pre j inp h
    cases j with
    | zero =>
      simp at h
      subst h
      simp [specBlocks, colOffset_zero]
    | succ j =>
      simp at h
      simp only [specBlocks, List.getElem?_cons_succ]
      rw [ih (pre + x.matrixSize) j inp h, colOffset_succ, Nat.add_assoc]

theorem pick_eq_some (matrix : List R) (off r c : Nat) (e : Nat × Nat × R) :
    pick matrix off r c = some e ↔
      ∃ x, matrix[off + c]? = some x ∧ x ≠ 0 ∧ e = (r, c, x) := by
  unfold pick
  cases h : matrix[off + c]? with
  | none => simp
  | some x =>
    by_cases hx : x = 0
    · simp [hx]
    · simp only [ne_eq, hx, not_false_eq_true, ↓reduceIte, Option.some.injEq]
      constructor
      · intro he; exact ⟨x, rfl, hx, he.symm⟩
      · rintro ⟨y, hy, _, he⟩; rw [he, hy]

/-- The entries of a block after `t` rows are exactly the non-zero elements of its
`w` columns in the first `t` rows of `matrix`. -/
theorem mem_specEntries (matrix : List R) (total pre w t : Nat) (e : Nat × Nat × R) :
    e ∈ specEntries matrix total pre w t ↔
      ∃ r c x, r < t ∧ c < w ∧ matrix[r * total + pre + c]? = some x ∧ x ≠ 0 ∧
        e = (r, c, x) := by
  unfold specEntries rowEntries
  simp only [List.mem_flatMap, List.mem_range, List.mem_filterMap, pick_eq_some]
  constructor
  · rintro ⟨r, hr, c, hc, x, hx, hne, he⟩
    exact ⟨r, c, x, hr, hc, hx, hne, he⟩
  · rintro ⟨r, c, x, hr, hc, hx, hne, he⟩
    exact ⟨r, hr, c, hc, x, hx, hne, he⟩

/-- Coefficients of a block holding `specEntries`: the element of `matrix`. -/
theorem coeff_specEntries (rows cols : Nat) (matrix : List R) (total pre w t r c : Nat)
    (hr : r < t) (hc : c < w) (hi : r * total + pre + c < matrix.length) :
    matrix[r * total + pre + c]? =
      some ((⟨rows, cols, specEntries matrix total pre w t⟩ : Block R).coeff r c) := by
  rw [List.getElem?_eq_getElem hi]
  unfold Block.coeff
  simp only
  cases hf : (specEntries matrix total pre w t).find?
      (fun e => e.1 == r && e.2.1 == c) with
  | none =>
    simp only [Option.some.injEq]
    rw [List.find?_eq_none] at hf
    by_contra hne
    have hmem : (r, c, matrix[r * total + pre + c]) ∈ specEntries matrix total pre w t := by
      rw [mem_specEntries]
      exact ⟨r, c, _, hr, hc, List.getElem?_eq_getElem hi, hne, rfl⟩
    have := hf _ hmem
    simp at this
  | some e =>
    have hp := List.find?_some hf
    have hmem := List.mem_of_find?_eq_some hf
    rw [mem_specEntries] at hmem
    obtain ⟨r', c', x, _, _, hx, _, he⟩ := hmem
    subst he
    simp at hp
    obtain ⟨h1, h2⟩ := hp
    subst h1 h2
    rw [List.getElem?_eq_getElem hi] at hx
    simp only [Option.some.injEq] at hx
    simp [hx]

/-- A block holding `specEntries` stores an entry exactly where `matrix` is non-zero. -/
theorem stored_specEntries (rows cols : Nat) (matrix : List R) (total pre w t r c : Nat)
    (hr : r < t) (hc : c < w) :
    (⟨rows, cols, specEntries matrix total pre w t⟩ : Block R).stored r c = true ↔
      ∃ x, matrix[r * total + pre + c]? = some x ∧ x ≠ 0 := by
  unfold Block.stored
  simp only [List.any_eq_true, mem_specEntries]
  constructor
  · rintro ⟨e, ⟨r', c', x, _, _, hx, hne, he⟩, hp⟩
    subst he
    simp at hp
    obtain ⟨h1, h2⟩ := hp
    subst h1 h2
    exact ⟨x, hx, hne⟩
  · rintro ⟨x, hx, hne⟩
    exact ⟨(r, c, x), ⟨r, c, x, hr, hc, hx, hne, rfl⟩, by simp⟩

theorem pick_isSome (matrix : List R) (off r c : Nat) :
    (pick matrix off r c).isSome = (pick matrix (off + c) 0 0).isSome := by
  unfold pick
  simp only [Nat.add_zero]
  cases matrix[off + c]? with
  | none => rfl
  | some x => by_cases hx : x = 0 <;> simp [hx]

theorem length_rowEntries (matrix : List R) (off r w : Nat) :
    (rowEntries matrix off r w).length =
      (List.range w).countP (fun c => (pick matrix (off + c) 0 0).isSome) := by
  unfold rowEntries
  rw [List.length_filterMap_eq_countP]
  apply List.countP_congr
  intro c _
  rw [pick_isSome]

/-- The number of entries a row segment gives does not depend on the row index. -/
theorem length_rowEntries_row (matrix : List R) (off r r' w : Nat) :
    (rowEntries matrix off r w).length = (rowEntries matrix off r' w).length := by
  rw [length_rowEntries, length_rowEntries]

/-- Splitting a row segment in two. -/
theorem length_rowEntries_add (matrix : List R) (off r w1 w2 : Nat) :
    (rowEntries matrix off r (w1 + w2)).length =
      (rowEntries matrix off r w1).length + (rowEntries matrix (off + w1) r w2).length := by
  induction w2 with
  | zero => simp [rowEntries]
  | succ n ih =>
    rw [← Nat.add_assoc, rowEntries_succ, rowEntries_succ, List.length_append,
      List.length_append, ih, Nat.add_assoc]
    congr 2
    have h1 := pick_isSome matrix off r (w1 + n)
    have h2 := pick_isSome matrix (off + w1) r n
    rw [Nat.add_assoc] at h2
    rw [← h2] at h1
    cases ha : pick matrix off r (w1 + n) <;> cases hb : pick matrix (off + w1) r n <;>
      simp [ha, hb] at h1 ⊢

/-- Scanning the whole of `matrix` counts its non-zero elements. -/
theorem length_rowEntries_all (matrix : List R) :
    (rowEntries matrix 0 0 matrix.length).length = countNonZero matrix := by
  induction matrix with
  | nil => simp [rowEntries, countNonZero]
  | cons x xs ih =>
    have hsplit := length_rowEntries_add (x :: xs) 0 0 1 xs.length
    rw [List.length_cons, Nat.add_comm xs.length 1, hsplit]
    have htail : (rowEntries (x :: xs) (0 + 1) 0 xs.length).length =
        (rowEntries xs 0 0 xs.length).length := by
      rw [length_rowEntries, length_rowEntries]
      apply List.countP_congr
      intro c _
      simp [pick, Nat.add_comm 1 c]
    rw [htail, ih]
    have hone : List.range 1 = [0] := rfl
    by_cases hx : x = 0
    · simp [rowEntries, hone, pick, countNonZero, hx]
    · simp [rowEntries, hone, pick, countNonZero, hx, Nat.add_comm]

theorem totalNonZeros_cons (b : Block R) (bs : List (Block R)) :
    totalNonZeros (b :: bs) = b.entries.length + totalNonZeros bs := by
  simp [totalNonZeros, Block.nonZeros]

/-- Row `t` adds to the blocks as many entries as it has non-zero elements in the
columns of the inputs. -/
theorem totalNonZeros_specBlocks_succ (ids rows : Nat) (matrix : List R) (total t : Nat) :
    ∀ (ins : List Input) (pre : Nat), (∀ inp ∈ ins, inp.size * ids = inp.matrixSize) →
      totalNonZeros (specBlocks ids rows matrix total (t + 1) pre ins) =
        totalNonZeros (specBlocks ids rows matrix total t pre ins) +
          (rowEntries matrix (t * total + pre) 0 (sumDims ins)).length := by
  intro ins
  induction ins with
  | nil => intro pre _; simp [specBlocks, totalNonZeros, rowEntries, sumDims_nil]
  | cons inp ins ih =>
    intro pre hin
    have hw : inp.size * ids = inp.matrixSize := hin inp (List.mem_cons_self _ _)
    have hrest := ih (pre + inp.matrixSize) (fun x hx => hin x (List.mem_cons_of_mem _ hx))
    simp only [specBlocks, totalNonZeros_cons, hrest, specEntries_succ, List.length_append,
      sumDims_cons, hw]
    rw [length_rowEntries_add matrix (t * total + pre) 0 inp.matrixSize (sumDims ins),
      length_rowEntries_row matrix (t * total + pre) t 0 inp.matrixSize]
    have e : t * total + pre + inp.matrixSize = t * total + (pre + inp.matrixSize) := by omega
    rw [e]
    omega

theorem totalNonZeros_specBlocks_zero (ids rows : Nat) (matrix : List R) (total : Nat) :
    ∀ (ins : List Input) (pre : Nat),
      totalNonZeros (specBlocks ids rows matrix total 0 pre ins) = 0 := by
  intro ins
  induction ins with
  | nil => intro pre; rfl
  | cons inp ins ih =>
    intro pre
    simp [specBlocks, totalNonZeros_cons, specEntries_zero, ih]

/-- After `t` rows the blocks hold as many entries as the first `t` rows of `matrix`
have non-zero elements. -/
theorem totalNonZeros_specBlocks (ids rows : Nat) (matrix : List R) (ins : List Input)
    (hin : ∀ inp ∈ ins, inp.size * ids = inp.matrixSize) (t : Nat) :
    totalNonZeros (specBlocks ids rows matrix (sumDims ins) t 0 ins) =
      (rowEntries matrix 0 0 (t * sumDims ins)).length := by
  induction t with
  | zero => simp [totalNonZeros_specBlocks_zero, rowEntries]
  | succ t ih =>
    rw [totalNonZeros_specBlocks_succ ids rows matrix (sumDims ins) t ins 0 hin, ih]
    have e : (t + 1) * sumDims ins = t * sumDims ins + sumDims ins := by ring
    rw [e, length_rowEntries_add matrix 0 0 (t * sumDims ins) (sumDims ins)]
    simp

/-- The final `size` of the resizing loop, modulo `2^32`, whatever the sizes. -/
theorem resizeBlocks_size (rows : Nat) :
    ∀ (ins : List Input) (size : Nat), size < 4294967296 →
      (resizeBlocks (R := R) rows ins size).2 = toUnsigned (size + rows * sumDims ins) := by
  intro ins
  induction ins with
  | nil =>
    intro size h
    simp [resizeBlocks, sumDims_nil, toUnsigned_of_lt h]
  | cons inp ins ih =>
    intro size _
    simp only [resizeBlocks]
    rw [ih _ (toUnsigned_lt _), toUnsigned_mul_right, toUnsigned_add_right, toUnsigned_add_left,
      sumDims_cons, Nat.mul_add, Nat.add_assoc]

theorem resizeBlocks_length (rows : Nat) :
    ∀ (ins : List Input) (size : Nat),
      (resizeBlocks (R := R) rows ins size).1.length = ins.length := by
  intro ins
  induction ins with
  | nil => intro size; rfl
  | cons inp ins ih => intro size; simp [resizeBlocks, ih]

/-- Whenever a pass of the loop over the inputs returns, `off` has advanced by the sum
of the widths, modulo `2^32`. -/
theorem inputLoop_off (ids : Nat) (matrix : List R) (r : Nat) :
    ∀ (ins : List Input) (bs : List (Block R)) (off : Nat) (st : List (Block R) × Nat),
      bs.length = ins.length → off < 4294967296 →
      inputLoop ids matrix r ins bs off = .ok st →
      st.2 = toUnsigned (off + sumDims ins) ∧ st.1.length = ins.length := by
  intro ins
  induction ins with
  | nil =>
    intro bs off st hlen hoff h
    simp [inputLoop] at h
    subst h
    simp [sumDims_nil, toUnsigned_of_lt hoff, hlen]
  | cons inp ins ih =>
    intro bs off st hlen hoff h
    cases bs with
    | nil => simp at hlen
    | cons b bs =>
      simp only [inputLoop] at h
      cases hd : dofLoop ids matrix off r (toUnsigned inp.size) b with
      | error e => rw [hd] at h; cases h
      | ok b' =>
        rw [hd] at h
        simp only at h
        cases hr : inputLoop ids matrix r ins bs (toUnsigned (off + toUnsigned inp.matrixSize)) with
        | error e => rw [hr] at h; cases h
        | ok st' =>
          rw [hr] at h
          simp only [Except.ok.injEq] at h
          obtain ⟨h2, h1⟩ := ih bs _ st' (by simpa using hlen) (toUnsigned_lt _) hr
          subst h
          simp only [List.length_cons, h1, h2, and_true]
          rw [toUnsigned_add_left, sumDims_cons]
          unfold toUnsigned
          omega

/-- Whenever the loop over `v` returns, `off` has advanced by `out_deriv_size` rows. -/
theorem derivLoop_off (ods ids : Nat) (matrix : List R) (ins : List Input) (i : Nat)
    (s st : List (Block R) × Nat) (hlen : s.1.length = ins.length) (hoff : s.2 < 4294967296)
    (h : derivLoop ods ids matrix ins i s = .ok st) :
    st.2 = toUnsigned (s.2 + ods * sumDims ins) ∧ st.1.length = ins.length := by
  have := forLoop_partial
    (fun v (t : List (Block R) × Nat) =>
      inputLoop ids matrix (toUnsigned (ods * i + v)) ins t.1 t.2)
    (fun v t => t.2 = toUnsigned (s.2 + v * sumDims ins) ∧ t.1.length = ins.length)
    ods 0 s st (by simp [toUnsigned_of_lt hoff, hlen])
    (by
      intro v t t' _ _ hP hb
      obtain ⟨h2, h1⟩ := inputLoop_off ids matrix _ ins t.1 t.2 t' hP.2
        (by rw [hP.1]; exact toUnsigned_lt _) hb
      refine ⟨?_, h1⟩
      rw [h2, hP.1, toUnsigned_add_left, Nat.add_assoc, Nat.succ_mul])
    h
  simpa [Nat.mul_comm] using this

/-- Whenever the loop over the output dofs returns, `off` is `n * out_deriv_size` rows,
modulo `2^32`. -/
theorem outLoop_off (ods ids : Nat) (matrix : List R) (ins : List Input) (n : Nat)
    (bs : List (Block R)) (st : List (Block R) × Nat) (hlen : bs.length = ins.length)
    (h : outLoop ods ids matrix ins n (bs, 0) = .ok st) :
    st.2 = toUnsigned (n * (ods * sumDims ins)) ∧ st.1.length = ins.length := by
  have := forLoop_partial
    (fun i (t : List (Block R) × Nat) => derivLoop ods ids matrix ins i t)
    (fun i t => t.2 = toUnsigned (i * (ods * sumDims ins)) ∧ t.1.length = ins.length)
    n 0 (bs, 0) st (by simp [toUnsigned, hlen])
    (by
      intro i t t' _ _ hP hb
      obtain ⟨h2, h1⟩ := derivLoop_off ods ids matrix ins i t t' hP.2
        (by rw [hP.1]; exact toUnsigned_lt _) hb
      refine ⟨?_, h1⟩
      rw [h2, hP.1, toUnsigned_add_left, Nat.succ_mul])
    h
  simpa using this

/-- The variable `size`, modulo `2^32`, whatever the sizes. -/
theorem sizeVar_eq (ods : Nat) {V : Type} (value : List V) (ins : List Input) :
    sizeVar ods value ins =
      toUnsigned (value.length * ods * sumDims (usedInputs ins)) := by
  unfold sizeVar rowsVar
  rw [resizeBlocks_size _ _ 0 (by decide), Nat.zero_add, toUnsigned_mul_left]

/-- The accumulated offset equals `size`, modulo `2^32`: the two are the same product. -/
theorem off_eq_sizeVar (ods : Nat) {V : Type} (value : List V) (ins : List Input) :
    toUnsigned (toUnsigned value.length * (ods * sumDims (usedInputs ins))) =
      sizeVar ods value ins := by
  rw [sizeVar_eq, toUnsigned_mul_left, Nat.mul_assoc]

/-- The first read of the loops is `matrix[0]`: with an empty `matrix`, at least one
output row and a first input with at least one derivative coordinate, the loops fault
at index `0`. -/
theorem outLoop_empty_matrix (ods ids : Nat) (inp : Input) (ins : List Input)
    (b : Block R) (bs : List (Block R)) (n : Nat) (hn : 0 < n) (hods : 0 < ods)
    (hids : 0 < ids) (hp : 0 < toUnsigned inp.size) :
    outLoop ods ids ([] : List R) (inp :: ins) n (b :: bs, 0) = .error (.outOfRange 0 0) := by
  obtain ⟨n', rfl⟩ := Nat.exists_eq_succ_of_ne_zero (Nat.pos_iff_ne_zero.mp hn)
  obtain ⟨ods', rfl⟩ := Nat.exists_eq_succ_of_ne_zero (Nat.pos_iff_ne_zero.mp hods)
  obtain ⟨ids', rfl⟩ := Nat.exists_eq_succ_of_ne_zero (Nat.pos_iff_ne_zero.mp hids)
  obtain ⟨p', hp'⟩ := Nat.exists_eq_succ_of_ne_zero (Nat.pos_iff_ne_zero.mp hp)
  have hdim : ∀ r : Nat, dimLoop (ids' + 1) ([] : List R) 0 r 0 b = .error (.outOfRange 0 0) := by
    intro r
    unfold dimLoop
    apply forLoop_succ_error
    simp [readMatrix, toUnsigned]
  have hdof : ∀ r : Nat,
      dofLoop (ids' + 1) ([] : List R) 0 r (toUnsigned inp.size) b = .error (.outOfRange 0 0) := by
    intro r
    unfold dofLoop
    rw [hp']
    apply forLoop_succ_error
    exact hdim r
  have hinput : ∀ r : Nat,
      inputLoop (ids' + 1) ([] : List R) r (inp :: ins) (b :: bs) 0 = .error (.outOfRange 0 0) := by
    intro r
    simp only [inputLoop, hdof r]
  have hderiv : derivLoop (ods' + 1) (ids' + 1) ([] : List R) (inp :: ins) 0 (b :: bs, 0) =
      .error (.outOfRange 0 0) := by
    unfold derivLoop
    apply forLoop_succ_error
    exact hinput _
  unfold outLoop
  apply forLoop_succ_error
  exact hderiv

/-- The blocks after the resizing loop: one empty block per input. -/
theorem resizeBlocks_fst (rows : Nat) :
    ∀ (ins : List Input) (size : Nat),
      (resizeBlocks (R := R) rows ins size).1 =
        ins.map (fun inp => Block.resize rows (toUnsigned inp.matrixSize)) := by
  intro ins
  induction ins with
  | nil => intro size; rfl
  | cons inp ins ih => intro size; simp [resizeBlocks, ih]

/-- The size-mismatch branch: the call returns at once, the blocks are empty, and the
message is sent exactly when `matrix` is not empty. -/
theorem assemble_of_mismatch (ods ids : Nat) {V : Type} (value : List V) (matrix : List R)
    (ins : List Input) (h : matrix.length ≠ sizeVar ods value ins) :
    assemble ods ids value matrix ins =
      .ok { jacobian := (usedInputs ins).map
              (fun inp => Block.resize (rowsVar ods value) (toUnsigned inp.matrixSize))
            serr := if matrix.length ≠ 0 then
              ["assemble: incorrect jacobian size, treating as zero"] else []
            early := true } := by
  unfold assemble
  unfold sizeVar at h
  rw [← resizeBlocks_snd (R := R)] at h
  simp only [h, ne_eq, not_false_eq_true, ↓reduceIte, resizeBlocks_fst]

/-- When the size check passes the call runs the loops and then the `assert`. -/
theorem assemble_of_check (ods ids : Nat) {V : Type} (value : List V) (matrix : List R)
    (ins : List Input) (h : matrix.length = sizeVar ods value ins) :
    assemble ods ids value matrix ins =
      match outLoop ods ids matrix (usedInputs ins) (toUnsigned value.length)
          ((usedInputs ins).map
            (fun inp => Block.resize (rowsVar ods value) (toUnsigned inp.matrixSize)), 0) with
      | .error e => .error e
      | .ok st =>
        if st.2 = matrix.length then .ok { jacobian := st.1, serr := [], early := false }
        else .error .assertion := by
  unfold assemble
  unfold sizeVar at h
  rw [← resizeBlocks_snd (R := R)] at h
  simp only [h, ne_eq, not_true_eq_false, ↓reduceIte, resizeBlocks_fst]

theorem wrapValue_length : wrapValue.length = 65536 := by
  unfold wrapValue
  rw [List.length_replicate]

theorem hugeMatrix_length : hugeMatrix.length = 4294967296 := by
  unfold hugeMatrix
  rw [List.length_replicate]

/-- At the wrap inputs the 32-bit variable `size` is `0`, while the expected size is
`65536 * 65536 = 2^32`. -/
theorem wrap_sizeVar : sizeVar 1 wrapValue wrapInputs = 0 := by
  unfold sizeVar rowsVar
  rw [wrapValue_length]
  rfl

theorem wrap_sumDims : sumDims wrapInputs = 65536 := rfl

/-- At the wrap inputs with an empty `matrix` the size check passes and the first
read, `matrix[0]`, is outside the vector. -/
theorem wrap_assemble_fault :
    assemble 1 1 wrapValue ([] : List Int) wrapInputs = .error (.outOfRange 0 0) := by
  rw [assemble_of_check 1 1 _ _ _ (by rw [wrap_sizeVar]; rfl)]
  have hused : usedInputs wrapInputs = [⟨65536, 65536⟩] := rfl
  rw [hused, List.map_cons, List.map_nil,
    outLoop_empty_matrix 1 1 _ _ _ _ _ (by rw [wrapValue_length]; decide) (by decide)
      (by decide) (by decide)]

/-- Blocks of the closed form of `assemble`, block by block. -/
theorem assemble_closed_block (ods ids : Nat) {V : Type} (value : List V) (matrix : List R)
    (ins : List Input) (hfit : Fits32 ods value.length ins)
    (hin : ∀ inp ∈ ins, inp.size * ids ≤ inp.matrixSize)
    (hsize : matrix.length = value.length * ods * sumDims ins) :
    ∃ out, assemble ods ids value matrix ins = .ok out ∧ out.early = false ∧
      out.serr = [] ∧ out.jacobian.length = ins.length ∧
      totalNonZeros out.jacobian = totalNonZeros
        (specBlocks ids (value.length * ods) matrix (sumDims ins) (value.length * ods) 0 ins) ∧
      ∀ (j : Nat) (inp : Input), ins[j]? = some inp →
        out.jacobian[j]? = some ⟨value.length * ods, inp.matrixSize,
          specEntries matrix (sumDims ins) (colOffset ins j) (inp.size * ids)
            (value.length * ods)⟩ := by
  refine ⟨_, assemble_closed ods ids value matrix ins hfit hin hsize, rfl, rfl, ?_, rfl, ?_⟩
  · exact specBlocks_length _ _ _ _ _ _ _
  · intro j inp hj
    have := specBlocks_getElem ids (value.length * ods) matrix (sumDims ins)
      (value.length * ods) ins 0 j inp hj
    rw [Nat.zero_add] at this
    exact this

/-- Index of element `(r, c)` of block `j` in `matrix`, and its bound. -/
theorem layout_index_lt (matrix : List R) (ins : List Input) (rows j r c : Nat) (inp : Input)
    (hj : ins[j]? = some inp) (hsize : matrix.length = rows * sumDims ins)
    (hr : r < rows) (hc : c < inp.matrixSize) :
    r * sumDims ins + colOffset ins j + c < matrix.length := by
  have h1 := colOffset_add_le ins j inp hj
  have h2 : (r + 1) * sumDims ins ≤ rows * sumDims ins := Nat.mul_le_mul_right _ hr
  rw [Nat.succ_mul] at h2
  omega

end PythonMultiMapping

/-- C2 (amended): when no size wraps in 32 bits, every input `j` has
`in[j].size() * in_deriv_size = cols_j` and `matrix` has `rows * (cols_0 + ... )`
elements, `assemble` returns and block `j` is `rows x cols_j` with coefficient `(r, c)`
equal to `matrix[r * (sum of widths) + (widths before j) + c]`. -/
theorem assemble_row_major {R : Type} [Zero R] [DecidableEq R] (ods ids : Nat) {V : Type}
    (value : List V) (matrix : List R) (ins : List Input)
    (hfit : Fits32 ods value.length ins)
    (hin : ∀ inp ∈ ins, inp.size * ids = inp.matrixSize)
    (hsize : matrix.length = value.length * ods * sumDims ins) :
    RowMajorLayout ods ids value matrix ins := by
  obtain ⟨out, hout, _, _, _, _, hblock⟩ := assemble_closed_block ods ids value matrix ins hfit
    (fun inp h => le_of_eq (hin inp h)) hsize
  refine ⟨out, hout, ?_⟩
  intro j inp hj
  refine ⟨_, hblock j inp hj, rfl, rfl, ?_⟩
  intro r c hr hc
  have hmem : inp ∈ ins := List.getElem?_mem hj
  apply coeff_specEntries
  · exact hr
  · rw [hin inp hmem]; exact hc
  · exact layout_index_lt matrix ins _ j r c inp hj hsize hr hc

/-- C2, an instance: two output rows, inputs of widths 2 and 1, `matrix = [1,0,2,0,3,4]`. -/
theorem assemble_row_major_witness :
    RowMajorLayout 1 1 [(), ()] ([1, 0, 2, 0, 3, 4] : List Int) [⟨2, 2⟩, ⟨1, 1⟩] :=
  assemble_row_major 1 1 [(), ()] [1, 0, 2, 0, 3, 4] [⟨2, 2⟩, ⟨1, 1⟩] (by decide) (by decide)
    (by decide)

/-- C2 fails as stated: with `65536` output rows, one input of width `65536` and a
`matrix` of the expected `2^32` elements, all ones, the 32-bit `size` is `0`, the call
takes the mismatch branch and coefficient `(0, 0)` of block `0` is not `matrix[0]`. -/
theorem assemble_row_major_wraps :
    (∀ inp ∈ wrapInputs, inp.size * 1 = inp.matrixSize) ∧
    hugeMatrix.length = wrapValue.length * 1 * sumDims wrapInputs ∧
    ¬ RowMajorLayout 1 1 wrapValue hugeMatrix wrapInputs := by
  refine ⟨by decide, ?_, ?_⟩
  · rw [hugeMatrix_length, wrapValue_length, wrap_sumDims]
  · rintro ⟨out, hout, h⟩
    rw [assemble_of_mismatch 1 1 _ _ _ (by rw [wrap_sizeVar, hugeMatrix_length]; decide)] at hout
    simp only [Except.ok.injEq] at hout
    subst hout
    obtain ⟨b, hb, _, _, hc⟩ := h 0 ⟨65536, 65536⟩ rfl
    have hused : usedInputs wrapInputs = [⟨65536, 65536⟩] := rfl
    simp only [hused, List.map_cons, List.map_nil, List.getElem?_cons_zero,
      Option.some.injEq] at hb
    subst hb
    have h00 := hc 0 0 (by rw [wrapValue_length]; decide) (by decide)
    have hidx : 0 * sumDims wrapInputs + colOffset wrapInputs 0 + 0 = 0 := by
      rw [colOffset_zero]; simp
    have hone : hugeMatrix[0]? = some 1 := by
      unfold hugeMatrix
      rw [List.getElem?_replicate, if_pos (by decide)]
    rw [hidx, hone] at h00
    simp [Block.coeff, Block.resize] at h00

namespace PythonMultiMapping

variable {R : Type} [Zero R] [DecidableEq R]

/-- A counted loop only raises the faults of its body. -/
theorem forLoop_error {σ : Type} (body : Nat → σ → Except Fault σ) (Q : Fault → Prop)
    (hbody : ∀ i s e, body i s = .error e → Q e) :
    ∀ (count i : Nat) (s : σ) (e : Fault), forLoop body count i s = .error e → Q e := by
  intro count
  induction count with
  | zero => intro i s e h; simp [forLoop] at h
  | succ n ih =>
    intro i s e h
    cases hb : body i s with
    | error e' =>
      rw [forLoop_succ_error body n i s e' hb] at h
      simp only [Except.error.injEq] at h
      rw [← h]
      exact hbody i s e' hb
    | ok s' =>
      rw [forLoop_succ_ok body n i s s' hb] at h
      exact ih (i + 1) s' e h

theorem dofLoop_error (ids : Nat) (matrix : List R) (off r p : Nat) (b : Block R) (e : Fault)
    (h : dofLoop ids matrix off r p b = .error e) : e ≠ .assertion := by
  unfold dofLoop at h
  refine forLoop_error _ (fun e => e ≠ .assertion) ?_ _ _ _ _ h
  intro k s e' hk
  unfold dimLoop at hk
  refine forLoop_error _ (fun e => e ≠ .assertion) ?_ _ _ _ _ hk
  intro u t e'' hu
  unfold readMatrix at hu
  cases hm : matrix[toUnsigned (off + toUnsigned (k * ids + u))]? with
  | none => simp [hm] at hu; rw [← hu]; simp
  | some x => simp [hm] at hu

theorem inputLoop_error (ids : Nat) (matrix : List R) (r : Nat) :
    ∀ (ins : List Input) (bs : List (Block R)) (off : Nat) (e : Fault),
      inputLoop ids matrix r ins bs off = .error e → e ≠ .assertion := by
  intro ins
  induction ins with
  | nil => intro bs off e h; simp [inputLoop] at h
  | cons inp ins ih =>
    intro bs off e h
    cases bs with
    | nil => simp [inputLoop] at h
    | cons b bs =>
      simp only [inputLoop] at h
      cases hd : dofLoop ids matrix off r (toUnsigned inp.size) b with
      | error e' =>
        rw [hd] at h
        simp only [Except.error.injEq] at h
        rw [← h]
        exact dofLoop_error ids matrix off r _ b e' hd
      | ok b' =>
        rw [hd] at h
        simp only at h
        cases hr : inputLoop ids matrix r ins bs (toUnsigned (off + toUnsigned inp.matrixSize)) with
        | error e' =>
          rw [hr] at h
          simp only [Except.error.injEq] at h
          rw [← h]
          exact ih _ _ _ hr
        | ok st' => rw [hr] at h; simp at h

/-- The loops only fault on a read outside `matrix`, never with the `assert` fault. -/
theorem outLoop_error (ods ids : Nat) (matrix : List R) (ins : List Input) (n : Nat)
    (st : List (Block R) × Nat) (e : Fault)
    (h : outLoop ods ids matrix ins n st = .error e) : e ≠ .assertion := by
  unfold outLoop at h
  refine forLoop_error _ (fun e => e ≠ .assertion) ?_ _ _ _ _ h
  intro i s e' hi
  unfold derivLoop at hi
  refine forLoop_error _ (fun e => e ≠ .assertion) ?_ _ _ _ _ hi
  intro v t e'' hv
  exact inputLoop_error ids matrix _ ins t.1 t.2 e'' hv

/-- When the size check passes and the loops return, `off` equals `matrix.size()`. -/
theorem outLoop_off_eq (ods ids : Nat) {V : Type} (value : List V) (matrix : List R)
    (ins : List Input) (h : matrix.length = sizeVar ods value ins)
    (st : List (Block R) × Nat)
    (hst : outLoop ods ids matrix (usedInputs ins) (toUnsigned value.length)
      ((usedInputs ins).map
        (fun inp => Block.resize (rowsVar ods value) (toUnsigned inp.matrixSize)), 0) = .ok st) :
    st.2 = matrix.length := by
  obtain ⟨h2, _⟩ := outLoop_off ods ids matrix (usedInputs ins) _ _ st (by simp) hst
  rw [h2, off_eq_sizeVar, h]

end PythonMultiMapping

/-- C8: whenever the size check `matrix.size() == size` passes, the offset accumulated
by the loops, in arithmetic modulo `2^32`, equals `matrix.size()` when the loops end, so
the call never ends in a failed `assert`; and when every read is in range the loops do
end and the call returns after the `assert`. -/
theorem assemble_assert_holds {R : Type} [Zero R] [DecidableEq R] (ods ids : Nat) {V : Type}
    (value : List V) (matrix : List R) (ins : List Input)
    (h : matrix.length = sizeVar ods value ins) :
    (∀ st, outLoop ods ids matrix (usedInputs ins) (toUnsigned value.length)
        ((usedInputs ins).map
          (fun inp => Block.resize (rowsVar ods value) (toUnsigned inp.matrixSize)), 0) = .ok st →
      st.2 = matrix.length) ∧
    assemble ods ids value matrix ins ≠ .error .assertion ∧
    (Fits32 ods value.length ins → (∀ inp ∈ ins, inp.size * ids ≤ inp.matrixSize) →
      ∃ out, assemble ods ids value matrix ins = .ok out ∧ out.early = false) := by
  refine ⟨fun st hst => outLoop_off_eq ods ids value matrix ins h st hst, ?_, ?_⟩
  · rw [assemble_of_check ods ids value matrix ins h]
    cases hl : outLoop ods ids matrix (usedInputs ins) (toUnsigned value.length)
        ((usedInputs ins).map
          (fun inp => Block.resize (rowsVar ods value) (toUnsigned inp.matrixSize)), 0) with
    | error e =>
      simp only [ne_eq, Except.error.injEq]
      exact outLoop_error ods ids matrix _ _ _ e hl
    | ok st =>
      simp only [outLoop_off_eq ods ids value matrix ins h st hl, ↓reduceIte, ne_eq]
      intro hc
      cases hc
  · intro hfit hin
    obtain ⟨out, hout, he, _⟩ := assemble_closed_block ods ids value matrix ins hfit hin
      (by rw [h, sizeVar_of_fits ods value ins hfit])
    exact ⟨out, hout, he⟩

/-- C8, an instance: two output rows, inputs of widths 2 and 1, six elements; the size
check passes and the call returns after the `assert`. -/
theorem assemble_assert_holds_witness :
    ([1, 0, 2, 0, 3, 4] : List Int).length = sizeVar 1 [(), ()] [⟨2, 2⟩, ⟨1, 1⟩] ∧
    ∃ out, assemble 1 1 [(), ()] ([1, 0, 2, 0, 3, 4] : List Int) [⟨2, 2⟩, ⟨1, 1⟩] = .ok out ∧
      out.early = false :=
  ⟨by decide,
    (assemble_assert_holds 1 1 [(), ()] ([1, 0, 2, 0, 3, 4] : List Int) [⟨2, 2⟩, ⟨1, 1⟩]
      (by decide)).2.2 (by decide) (by decide)⟩

/-- Size mismatch when no size wraps (supports C3): if `matrix.size()` differs from the
expected size `rows * (sum of the widths)`, the call returns through the mismatch branch, before the
loops and the `assert`, and block `j` is `rows x cols_j` with nothing stored. -/
theorem assemble_mismatch_zero {R : Type} [Zero R] [DecidableEq R] (ods ids : Nat) {V : Type}
    (value : List V) (matrix : List R) (ins : List Input)
    (hfit : Fits32 ods value.length ins)
    (hne : matrix.length ≠ value.length * ods * sumDims ins) :
    ZeroJacobian ods ids value matrix ins := by
  have hsz := sizeVar_of_fits ods value ins hfit
  obtain ⟨h1, h2, h3, _⟩ := hfit
  refine ⟨_, assemble_of_mismatch ods ids value matrix ins (by rw [hsz]; exact hne), rfl, ?_⟩
  intro j inp hj
  have hcols : toUnsigned inp.matrixSize = inp.matrixSize :=
    toUnsigned_of_lt (h2 inp (List.getElem?_mem hj))
  refine ⟨Block.resize (rowsVar ods value) (toUnsigned inp.matrixSize), ?_, ?_, ?_, rfl⟩
  · simp only [usedInputs_of_lt ins h1, List.getElem?_map, hj, Option.map_some']
  · simp only [Block.resize, rowsVar]
    exact toUnsigned_of_lt h3
  · simp only [Block.resize]
    exact hcols

/-- An instance of the size mismatch: one output row, one input of width 1, two elements instead of one. -/
theorem assemble_mismatch_zero_witness :
    ZeroJacobian 1 1 [()] ([5, 5] : List Int) [⟨1, 1⟩] :=
  assemble_mismatch_zero 1 1 [()] ([5, 5] : List Int) [⟨1, 1⟩] (by decide) (by decide)

/-- C3, the failing input: with `65536` output rows, one input of width `65536` and an
empty `matrix`, the expected size `2^32` differs from `matrix.size() = 0`, yet the
32-bit `size` is `0`, the mismatch branch is not taken and the loops read `matrix[0]`
outside the empty vector. -/
theorem assemble_mismatch_missed_on_wrap :
    ([] : List Int).length ≠ wrapValue.length * 1 * sumDims wrapInputs ∧
    ([] : List Int).length = sizeVar 1 wrapValue wrapInputs ∧
    assemble 1 1 wrapValue ([] : List Int) wrapInputs = .error (.outOfRange 0 0) ∧
    ¬ ZeroJacobian 1 1 wrapValue ([] : List Int) wrapInputs := by
  refine ⟨?_, ?_, wrap_assemble_fault, ?_⟩
  · rw [wrapValue_length, wrap_sumDims]; decide
  · rw [wrap_sizeVar]; rfl
  · rintro ⟨out, hout, _⟩
    rw [wrap_assemble_fault] at hout
    cases hout

/-- Stored entries when no size wraps (supports C9): if the size check passes and every
input `j` has `in[j].size() * in_deriv_size = cols_j`, the call returns, no stored value is zero,
block `j` holds an entry at `(r, c)` exactly when the corresponding element of `matrix`
is non-zero, and the blocks hold as many entries as `matrix` has non-zero elements. -/
theorem assemble_stores_non_zeros {R : Type} [Zero R] [DecidableEq R] (ods ids : Nat)
    {V : Type} (value : List V) (matrix : List R) (ins : List Input)
    (hfit : Fits32 ods value.length ins)
    (hin : ∀ inp ∈ ins, inp.size * ids = inp.matrixSize)
    (hcheck : matrix.length = sizeVar ods value ins) :
    StoresNonZeros ods ids value matrix ins := by
  have hsize : matrix.length = value.length * ods * sumDims ins := by
    rw [hcheck, sizeVar_of_fits ods value ins hfit]
  obtain ⟨out, hout, _, _, _, hcount, hblock⟩ := assemble_closed_block ods ids value matrix ins
    hfit (fun inp h => le_of_eq (hin inp h)) hsize
  refine ⟨out, hout, ?_, ?_⟩
  · intro j inp hj
    refine ⟨_, hblock j inp hj, ?_, ?_⟩
    · intro e he
      rw [mem_specEntries] at he
      obtain ⟨r, c, x, _, _, _, hne, rfl⟩ := he
      exact hne
    · intro r c hr hc
      apply stored_specEntries
      · exact hr
      · rw [hin inp (List.getElem?_mem hj)]; exact hc
  · rw [hcount, totalNonZeros_specBlocks ids _ matrix ins hin, ← hsize,
      length_rowEntries_all]

/-- Stored entries, an instance: two output rows, inputs of widths 2 and 1,
`matrix = [1,0,2,0,3,4]`. -/
theorem assemble_stores_non_zeros_witness :
    StoresNonZeros 1 1 [(), ()] ([1, 0, 2, 0, 3, 4] : List Int) [⟨2, 2⟩, ⟨1, 1⟩] :=
  assemble_stores_non_zeros 1 1 [(), ()] [1, 0, 2, 0, 3, 4] [⟨2, 2⟩, ⟨1, 1⟩] (by decide)
    (by decide) (by decide)

/-- C9, the failing input: with `65536` output rows, one input of width `65536` with
`in[0].size() * in_deriv_size = cols_0` and an empty `matrix`, the 32-bit `size` wraps
to `0`, the size check passes, and the call stores no block at all: its first read is
outside `matrix`.  The defect is the one of C3. -/
theorem assemble_stores_wrap :
    ([] : List Int).length = sizeVar 1 wrapValue wrapInputs ∧
    (∀ inp ∈ wrapInputs, inp.size * 1 = inp.matrixSize) ∧
    assemble 1 1 wrapValue ([] : List Int) wrapInputs = .error (.outOfRange 0 0) ∧
    ¬ StoresNonZeros 1 1 wrapValue ([] : List Int) wrapInputs := by
  refine ⟨by rw [wrap_sizeVar]; rfl, by decide, wrap_assemble_fault, ?_⟩
  rintro ⟨out, hout, _⟩
  rw [wrap_assemble_fault] at hout
  cases hout

/-- Index safety when no size wraps (supports C10): if the size check passes and every
input `j` has `in[j].size() * in_deriv_size <= cols_j`, no read of `matrix` is out of range and every
entry passed to `insertBack` lies inside its block.  Without the precondition the size
check alone is not enough: with one input of width 1 and 2 dofs the second read is
outside `matrix`; with two inputs of width 1, the first with 2 dofs, block `0` receives
an entry in column 1. -/
theorem assemble_index_safe {R : Type} [Zero R] [DecidableEq R] (ods ids : Nat)
    {V : Type} (value : List V) (matrix : List R) (ins : List Input)
    (hfit : Fits32 ods value.length ins)
    (hin : ∀ inp ∈ ins, inp.size * ids ≤ inp.matrixSize)
    (hcheck : matrix.length = sizeVar ods value ins) :
    IndexSafe ods ids value matrix ins ∧
    (([1] : List Int).length = sizeVar 1 [()] [⟨1, 2⟩] ∧
      assemble 1 1 [()] ([1] : List Int) [⟨1, 2⟩] = .error (.outOfRange 1 1)) ∧
    (([1, 1] : List Int).length = sizeVar 1 [()] [⟨1, 2⟩, ⟨1, 1⟩] ∧
      ∃ out b, assemble 1 1 [()] ([1, 1] : List Int) [⟨1, 2⟩, ⟨1, 1⟩] = .ok out ∧
        out.jacobian[0]? = some b ∧ b.cols = 1 ∧ (0, 1, 1) ∈ b.entries) := by
  have hsize : matrix.length = value.length * ods * sumDims ins := by
    rw [hcheck, sizeVar_of_fits ods value ins hfit]
  obtain ⟨out, hout, _, _, hlen, _, hblock⟩ := assemble_closed_block ods ids value matrix ins
    hfit hin hsize
  refine ⟨⟨out, hout, hlen, ?_⟩, ⟨by decide, rfl⟩, ⟨by decide, ?_⟩⟩
  · intro b hb e he
    obtain ⟨j, hj⟩ := List.mem_iff_getElem?.mp hb
    have hjlt : j < ins.length := by
      rw [← hlen]
      by_contra hge
      rw [List.getElem?_eq_none (by omega)] at hj
      cases hj
    have hinp : ins[j]? = some ins[j] := List.getElem?_eq_getElem hjlt
    rw [hblock j _ hinp] at hj
    simp only [Option.some.injEq] at hj
    subst hj
    simp only at he ⊢
    rw [mem_specEntries] at he
    obtain ⟨r, c, x, hr, hc, _, _, rfl⟩ := he
    exact ⟨hr, lt_of_lt_of_le hc (hin _ (List.getElem?_mem hinp))⟩
  · exact ⟨⟨[⟨1, 1, [(0, 0, 1), (0, 1, 1)]⟩, ⟨1, 1, [(0, 0, 1)]⟩], [], false⟩,
      ⟨1, 1, [(0, 0, 1), (0, 1, 1)]⟩, rfl, rfl, rfl, by simp⟩

/-- Index safety, an instance: two output rows, inputs of widths 2 and 1, six elements. -/
theorem assemble_index_safe_witness :
    IndexSafe 1 1 [(), ()] ([1, 0, 2, 0, 3, 4] : List Int) [⟨2, 2⟩, ⟨1, 1⟩] :=
  (assemble_index_safe 1 1 [(), ()] ([1, 0, 2, 0, 3, 4] : List Int) [⟨2, 2⟩, ⟨1, 1⟩]
    (by decide) (by decide) (by decide)).1

/-- C10, the failing input: with `65536` output rows, one input of width `65536` with
`in[0].size() * in_deriv_size <= cols_0` and an empty `matrix`, the 32-bit `size` wraps
to `0`, the size check passes, and the first read uses index `0`, which is not below
`matrix.size() = 0`.  The defect is the one of C3. -/
theorem assemble_index_wrap :
    ([] : List Int).length = sizeVar 1 wrapValue wrapInputs ∧
    (∀ inp ∈ wrapInputs, inp.size * 1 ≤ inp.matrixSize) ∧
    assemble 1 1 wrapValue ([] : List Int) wrapInputs = .error (.outOfRange 0 0) ∧
    ¬ IndexSafe 1 1 wrapValue ([] : List Int) wrapInputs := by
  refine ⟨by rw [wrap_sizeVar]; rfl, by decide, wrap_assemble_fault, ?_⟩
  rintro ⟨out, hout, _⟩
  rw [wrap_assemble_fault] at hout
  cases hout

namespace PythonMultiMapping

theorem resizeVec_length {V : Type} [Inhabited V] (value : List V) (n : Nat) :
    (resizeVec value n).length = n := by
  unfold resizeVec
  rw [List.length_append, List.length_take, List.length_replicate]
  omega

theorem resizeVec_getElem?_lt {V : Type} [Inhabited V] (value : List V) (n i : Nat)
    (hi : i < min value.length n) : (resizeVec value n)[i]? = value[i]? := by
  unfold resizeVec
  rw [List.getElem?_append_left (by rw [List.length_take]; omega),
    List.getElem?_take_of_lt (by omega)]

theorem resizeVec_getElem?_ge {V : Type} [Inhabited V] (value : List V) (n i : Nat)
    (hi : value.length ≤ i) (hn : i < n) : (resizeVec value n)[i]? = some default := by
  unfold resizeVec
  have hlen : (value.take n).length = value.length := by rw [List.length_take]; omega
  rw [List.getElem?_append_right (by omega), hlen, List.getElem?_replicate,
    if_pos (by omega)]

/-- The copy loop of `apply`: with `value` as long as `out`, after `n` steps the first
`n` elements of `out` are those of `value` and the others are unchanged. -/
theorem copyLoop_closed {V : Type} (out value : List V) (hlen : value.length = out.length)
    (n : Nat) (hn : n ≤ out.length) :
    ∃ o, forLoop (fun i (o : List V) =>
        match value[i]? with
        | some x => if i < o.length then .ok (o.set i x) else .error (.outOfRange i o.length)
        | none => .error (.outOfRange i value.length)) n 0 out = .ok o ∧
      o.length = out.length ∧ (∀ k : Nat, k < n → o[k]? = value[k]?) ∧
      (∀ k : Nat, n ≤ k → o[k]? = out[k]?) := by
  obtain ⟨o, ho, hP⟩ := forLoop_total
    (fun i (o : List V) =>
        match value[i]? with
        | some x => if i < o.length then .ok (o.set i x) else .error (.outOfRange i o.length)
        | none => .error (.outOfRange i value.length))
    (fun i (o : List V) => o.length = out.length ∧ (∀ k : Nat, k < i → o[k]? = value[k]?) ∧
      (∀ k : Nat, i ≤ k → o[k]? = out[k]?))
    n 0 out ⟨rfl, fun k hk => absurd hk (Nat.not_lt_zero k), fun _ _ => rfl⟩
    (by
      intro i o _ hi hP
      obtain ⟨h1, h2, h3⟩ := hP
      have hiv : i < value.length := by omega
      refine ⟨o.set i value[i], ?_, ?_, ?_, ?_⟩
      · beta_reduce
        rw [List.getElem?_eq_getElem hiv]
        simp only
        rw [if_pos (by omega)]
      · rw [List.length_set, h1]
      · intro k hk
        rw [List.getElem?_set]
        by_cases hik : i = k
        · subst hik
          rw [if_pos rfl, if_pos (by omega), List.getElem?_eq_getElem hiv]
        · rw [if_neg hik]
          exact h2 k (by omega)
      · intro k hk
        rw [List.getElem?_set, if_neg (by omega)]
        exact h3 k (by omega))
  refine ⟨o, ho, ?_⟩
  simpa using hP

/-- When the loop bound `n = out.size()` wraps to `0` nothing is copied. -/
theorem apply_of_wrapped_zero {V : Type} [Inhabited V] (out value : List V)
    (hn : toUnsigned out.length = 0) (hlen : value.length = out.length) :
    PythonMultiMapping.apply out value = .ok { out := out, value := value, serr := [] } := by
  have hne : (out.length != value.length) = false := by simp [hlen]
  unfold PythonMultiMapping.apply
  simp only [hn, hne, forLoop, Bool.false_eq_true, ↓reduceIte]

end PythonMultiMapping

/-- C4 (amended): for an output of fewer than `2^32` elements `apply` never fails; `out`
keeps its length `n`, `value` ends with length `n` (unchanged when it had that length,
otherwise its first `min (m, n)` elements kept and the rest default-constructed), and
`out[i] = value[i]` for every `i < n`, so `out[i]` is the original `value[i]` for
`i < min (m, n)`. -/
theorem apply_copies_value {V : Type} [Inhabited V] (out value : List V)
    (h : out.length < 4294967296) : CopiesValue out value := by
  unfold CopiesValue PythonMultiMapping.apply
  simp only [toUnsigned_of_lt h]
  by_cases hm : value.length = out.length
  · obtain ⟨o, ho, h1, h2, _⟩ := copyLoop_closed out value hm out.length (Nat.le_refl _)
    have hne : (out.length != value.length) = false := by simp [hm]
    simp only [hne, Bool.false_eq_true, ↓reduceIte, ho]
    refine ⟨_, rfl, h1, hm, fun _ => rfl, fun _ _ => rfl, ?_, h2, ?_⟩
    · intro i hi hlt; omega
    · intro i hi; exact h2 i (by omega)
  · have hne : (out.length != value.length) = true := by
      simp only [bne_iff_ne, ne_eq]
      exact fun e => hm e.symm
    obtain ⟨o, ho, h1, h2, _⟩ := copyLoop_closed out (resizeVec value out.length)
      (resizeVec_length value out.length) out.length (Nat.le_refl _)
    simp only [hne, ↓reduceIte, ho]
    refine ⟨_, rfl, h1, resizeVec_length value out.length, fun e => absurd e hm, ?_, ?_, h2, ?_⟩
    · intro i hi; exact resizeVec_getElem?_lt value out.length i hi
    · intro i hi hlt; exact resizeVec_getElem?_ge value out.length i hi hlt
    · intro i hi
      rw [h2 i (by omega)]
      exact resizeVec_getElem?_lt value out.length i hi

/-- C4, an instance: an output of three coordinates and a `value` of one. -/
theorem apply_copies_value_witness : CopiesValue ([1, 2, 3] : List Int) [7] :=
  apply_copies_value [1, 2, 3] [7] (by decide)

/-- C4 fails as stated: with an output of `2^32` zeros and a `value` of `2^32` ones the
loop bound `n = out.size()`, stored in an `unsigned`, is `0`; nothing is copied and
`out[0]` stays `0` while `value[0]` is `1`. -/
theorem apply_truncated_bound :
    ∃ res, PythonMultiMapping.apply hugeOut hugeValue = .ok res ∧
      res.out[0]? = some 0 ∧ res.value[0]? = some 1 ∧ ¬ CopiesValue hugeOut hugeValue := by
  have hlo : hugeOut.length = 4294967296 := by
    unfold hugeOut; rw [List.length_replicate]
  have hlv : hugeValue.length = 4294967296 := by
    unfold hugeValue; rw [List.length_replicate]
  have ho0 : hugeOut[0]? = some 0 := by
    unfold hugeOut; rw [List.getElem?_replicate, if_pos (by decide)]
  have hv0 : hugeValue[0]? = some 1 := by
    unfold hugeValue; rw [List.getElem?_replicate, if_pos (by decide)]
  have hn : toUnsigned hugeOut.length = 0 := by rw [hlo]; rfl
  have happly := apply_of_wrapped_zero hugeOut hugeValue hn (by rw [hlo, hlv])
  refine ⟨_, happly, ho0, hv0, ?_⟩
  rintro ⟨res, hres, _, _, _, _, _, hcopy, _⟩
  rw [happly] at hres
  simp only [Except.ok.injEq] at hres
  subst hres
  have := hcopy 0 (by rw [hlo]; decide)
  simp only [ho0, hv0] at this
  cases this


/-! ## Theorems about `AssemblyVisitor` -/

namespace AssemblyVisitor

variable {R : Type}

/-- A successful write: the lengths agree, the segment fits, and the result is `res`
with `data` at the positions of the segment. -/
theorem writeSegment_ok (res : List R) (off size : Nat) (data out : List R)
    (h : writeSegment res off size data = .ok out) :
    data.length = size ∧ off + size ≤ res.length ∧ out.length = res.length ∧
      ∀ p : Nat, out[p]? =
        if off ≤ p ∧ p < off + size then data[p - off]? else res[p]? := by
  unfold writeSegment at h
  split at h
  · rename_i hc
    obtain ⟨hd, hfit⟩ := hc
    simp only [Except.ok.injEq] at h
    subst h
    have hlen : (res.take off).length = off := by rw [List.length_take]; omega
    refine ⟨hd, hfit, ?_, ?_⟩
    · simp only [List.length_append, List.length_take, List.length_drop]
      omega
    · intro p
      by_cases h1 : p < off
      · rw [if_neg (by omega), List.append_assoc, List.getElem?_append_left (by omega),
          List.getElem?_take_of_lt h1]
      · rw [List.append_assoc, List.getElem?_append_right (by omega), hlen]
        by_cases h2 : p < off + size
        · rw [if_pos ⟨by omega, h2⟩, List.getElem?_append_left (by omega)]
        · rw [if_neg (by omega), List.getElem?_append_right (by omega), List.getElem?_drop]
          congr 1
          omega
  · cases h

theorem writeSegment_of (res : List R) (off size : Nat) (data : List R)
    (hd : data.length = size) (hfit : off + size ≤ res.length) :
    writeSegment res off size data = .ok (res.take off ++ data ++ res.drop (off + size)) := by
  unfold writeSegment
  rw [if_pos ⟨hd, hfit⟩]

theorem segment_of (x : List R) (off size : Nat) (h : off + size ≤ x.length) :
    segment x off size = .ok ((x.drop off).take size) := by
  unfold segment
  rw [if_pos h]

theorem drop_take_length (x : List R) (off size : Nat) (h : off + size ≤ x.length) :
    ((x.drop off).take size).length = size := by
  rw [List.length_take, List.length_drop]
  omega

theorem drop_take_getElem? (x : List R) (off size j : Nat) (hj : j < size) :
    ((x.drop off).take size)[j]? = x[off + j]? := by
  rw [List.getElem?_take_of_lt hj, List.getElem?_drop]

theorem covered_cons (e : Nat × Nat × Nat) (es : List (Nat × Nat × Nat)) (p : Nat) :
    covered (e :: es) p ↔ (e.2.1 ≤ p ∧ p < e.2.1 + e.2.2) ∨ covered es p := by
  simp [covered]

theorem not_covered_nil (p : Nat) : ¬ covered [] p := by
  simp [covered]

/-- What a gather that returns tells: the length is kept, every entry had a vector of
its width and a segment inside the global vector, and the positions that no segment
covers are unchanged. -/
theorem gatherFrom_ok (store : Store R) (id : Nat) :
    ∀ (table : List (Nat × Nat × Nat)) (res out : List R),
      gatherFrom store id table res = .ok out →
      out.length = res.length ∧
      (∀ e ∈ table, (vectorGet store e.1 id).length = e.2.2 ∧ e.2.1 + e.2.2 ≤ res.length) ∧
      ∀ p : Nat, ¬ covered table p → out[p]? = res[p]? := by
  intro table
  induction table with
  | nil =>
    intro res out h
    simp only [gatherFrom, Except.ok.injEq] at h
    subst h
    exact ⟨rfl, fun e he => by simp at he, fun _ _ => rfl⟩
  | cons e es ih =>
    intro res out h
    simp only [gatherFrom] at h
    cases hw : writeSegment res e.2.1 e.2.2 (vectorGet store e.1 id) with
    | error f => rw [hw] at h; cases h
    | ok r =>
      rw [hw] at h
      obtain ⟨hd, hfit, hlen, hget⟩ := writeSegment_ok _ _ _ _ _ hw
      obtain ⟨h1, h2, h3⟩ := ih r out h
      refine ⟨by rw [h1, hlen], ?_, ?_⟩
      · intro e' he'
        rcases List.mem_cons.mp he' with heq | hmem
        · rw [heq]; exact ⟨hd, hfit⟩
        · have := h2 e' hmem
          rw [hlen] at this
          exact this
      · intro p hp
        rw [covered_cons] at hp
        rw [h3 p (fun hc => hp (Or.inr hc)), hget p, if_neg (fun hc => hp (Or.inl hc))]

/-- A gather returns when every entry has a vector of its width and a segment inside
the global vector. -/
theorem gatherFrom_total (store : Store R) (id : Nat) :
    ∀ (table : List (Nat × Nat × Nat)) (res : List R),
      (∀ e ∈ table, (vectorGet store e.1 id).length = e.2.2 ∧ e.2.1 + e.2.2 ≤ res.length) →
      ∃ out, gatherFrom store id table res = .ok out := by
  intro table
  induction table with
  | nil => intro res _; exact ⟨res, rfl⟩
  | cons e es ih =>
    intro res h
    obtain ⟨hd, hfit⟩ := h e (List.mem_cons_self _ _)
    have hw := writeSegment_of res e.2.1 e.2.2 (vectorGet store e.1 id) hd hfit
    obtain ⟨_, _, hlen, _⟩ := writeSegment_ok _ _ _ _ _ hw
    obtain ⟨out, hout⟩ := ih _ (fun e' he' => by
      have := h e' (List.mem_cons_of_mem _ he')
      rw [hlen]
      exact this)
    exact ⟨out, by simp only [gatherFrom, hw, hout]⟩

/-- Scattering `x` over a table whose segments lie inside `x` returns; it leaves alone
the states that are not in the table and, when the states of the table are distinct,
gives each of them its segment of `x`. -/
theorem distribute_ok (id : Nat) (x : List R) :
    ∀ (table : List (Nat × Nat × Nat)) (store : Store R),
      (∀ e ∈ table, e.2.1 + e.2.2 ≤ x.length) →
      ∃ store', distribute id x table store = .ok store' ∧
        (∀ d : Nat, (∀ e ∈ table, e.1 ≠ d) → store' d id = store d id) ∧
        (table.Pairwise (fun a b => a.1 ≠ b.1) →
          ∀ e ∈ table, vectorGet store' e.1 id = (x.drop e.2.1).take e.2.2) := by
  intro table
  induction table with
  | nil =>
    intro store _
    exact ⟨store, rfl, fun _ _ => rfl, fun _ e he => by simp at he⟩
  | cons e es ih =>
    intro store h
    have hseg := segment_of x e.2.1 e.2.2 (h e (List.mem_cons_self _ _))
    obtain ⟨store', hs, hother, hmine⟩ := ih (vectorSet store e.1 id ((x.drop e.2.1).take e.2.2))
      (fun e' he' => h e' (List.mem_cons_of_mem _ he'))
    refine ⟨store', by simp only [distribute, hseg, hs], ?_, ?_⟩
    · intro d hd
      rw [hother d (fun e' he' => hd e' (List.mem_cons_of_mem _ he'))]
      have hne : d ≠ e.1 := fun heq => hd e (List.mem_cons_self _ _) heq.symm
      simp [vectorSet, hne]
    · intro hpair e' he'
      rw [List.pairwise_cons] at hpair
      rcases List.mem_cons.mp he' with heq | hmem
      · rw [heq]
        unfold vectorGet
        rw [hother e.1 (fun e'' he'' => (hpair.1 e'' he'').symm)]
        simp [vectorSet]
      · exact hmine hpair.2 e' hmem

/-- Gathering from a store that holds, for each entry, its segment of `x`: the
positions covered by the table hold `x`, the others are unchanged. -/
theorem gatherFrom_segments (store : Store R) (id : Nat) (x : List R) :
    ∀ (table : List (Nat × Nat × Nat)) (res : List R), res.length = x.length →
      (∀ e ∈ table, vectorGet store e.1 id = (x.drop e.2.1).take e.2.2 ∧
        e.2.1 + e.2.2 ≤ x.length) →
      ∃ y, gatherFrom store id table res = .ok y ∧ y.length = x.length ∧
        (∀ p : Nat, covered table p → y[p]? = x[p]?) ∧
        (∀ p : Nat, ¬ covered table p → y[p]? = res[p]?) := by
  intro table
  induction table with
  | nil =>
    intro res hlen _
    exact ⟨res, rfl, hlen, fun p hp => absurd hp (not_covered_nil p), fun _ _ => rfl⟩
  | cons e es ih =>
    intro res hlen h
    obtain ⟨hv, hfit⟩ := h e (List.mem_cons_self _ _)
    have hd : (vectorGet store e.1 id).length = e.2.2 := by
      rw [hv]; exact drop_take_length x _ _ hfit
    have hw := writeSegment_of res e.2.1 e.2.2 (vectorGet store e.1 id) hd (by omega)
    obtain ⟨_, _, hlen1, hget⟩ := writeSegment_ok _ _ _ _ _ hw
    obtain ⟨y, hy, hylen, hcov, hunc⟩ := ih _ (by rw [hlen1, hlen])
      (fun e' he' => h e' (List.mem_cons_of_mem _ he'))
    have hhead : ∀ p : Nat, e.2.1 ≤ p → p < e.2.1 + e.2.2 →
        (res.take e.2.1 ++ vectorGet store e.1 id ++ res.drop (e.2.1 + e.2.2))[p]? = x[p]? := by
      intro p h1 h2
      rw [hget p, if_pos ⟨h1, h2⟩, hv, drop_take_getElem? x _ _ _ (by omega)]
      congr 1
      omega
    refine ⟨y, by simp only [gatherFrom, hw, hy], hylen, ?_, ?_⟩
    · intro p hp
      by_cases hc : covered es p
      · exact hcov p hc
      · rw [hunc p hc]
        rw [covered_cons] at hp
        rcases hp with ⟨h1, h2⟩ | hp
        · exact hhead p h1 h2
        · exact absurd hp hc
    · intro p hp
      rw [covered_cons] at hp
      rw [hunc p (fun hc => hp (Or.inr hc)), hget p, if_neg (fun hc => hp (Or.inl hc))]

/-- Round trip over any table of distinct states: a vector produced by the gather is
scattered without fault and gathered back unchanged. -/
theorem gather_round_trip [Zero R] (store : Store R) (id : Nat)
    (table : List (Nat × Nat × Nat)) (total : Nat) (x : List R)
    (hpair : table.Pairwise (fun a b => a.1 ≠ b.1))
    (hx : gather store id table total = .ok x) :
    x.length = total ∧
      ∃ store', distribute id x table store = .ok store' ∧
        gather store' id table total = .ok x := by
  unfold gather at hx
  obtain ⟨hlen, hfit, hunc⟩ := gatherFrom_ok store id table _ x hx
  rw [List.length_replicate] at hlen
  have hin : ∀ e ∈ table, e.2.1 + e.2.2 ≤ x.length := by
    intro e he
    have := (hfit e he).2
    rw [List.length_replicate] at this
    omega
  obtain ⟨store', hs, _, hmine⟩ := distribute_ok id x table store hin
  obtain ⟨y, hy, hylen, hcov, hunc'⟩ := gatherFrom_segments store' id x table
    (List.replicate total 0) (by rw [List.length_replicate, hlen])
    (fun e he => ⟨hmine hpair e he, hin e he⟩)
  refine ⟨hlen, store', hs, ?_⟩
  unfold gather
  rw [hy]
  congr 1
  apply List.ext_getElem?
  intro p
  by_cases hc : covered table p
  · exact hcov p hc
  · rw [hunc' p hc, hunc p hc]

/-- The handles of an offset table are at least the handle of its first chunk. -/
theorem offsetTable_handle_ge (select : chunk R → Bool) (width : chunk R → Nat) :
    ∀ (cs : List (chunk R)) (k acc : Nat),
      ∀ e ∈ offsetTable select width cs k acc, k ≤ e.1 := by
  intro cs
  induction cs with
  | nil => intro k acc e he; simp [offsetTable] at he
  | cons c cs ih =>
    intro k acc e he
    simp only [offsetTable] at he
    split at he
    · rcases List.mem_cons.mp he with h | h
      · rw [h]
      · exact le_trans (Nat.le_succ k) (ih _ _ e h)
    · exact le_trans (Nat.le_succ k) (ih _ _ e he)

/-- The states of an offset table are distinct. -/
theorem offsetTable_pairwise (select : chunk R → Bool) (width : chunk R → Nat) :
    ∀ (cs : List (chunk R)) (k acc : Nat),
      (offsetTable select width cs k acc).Pairwise (fun a b => a.1 ≠ b.1) := by
  intro cs
  induction cs with
  | nil => intro k acc; simp [offsetTable]
  | cons c cs ih =>
    intro k acc
    simp only [offsetTable]
    split
    · rw [List.pairwise_cons]
      refine ⟨?_, ih _ _⟩
      intro e he
      have := offsetTable_handle_ge select width cs (k + 1) _ e he
      simp only [ne_eq]
      omega
    · exact ih _ _

/-- When the running total does not wrap it is the exact sum of the widths. -/
theorem tableTotal_exact (select : chunk R → Bool) (width : chunk R → Nat) :
    ∀ (cs : List (chunk R)) (acc : Nat), acc + exactTotal select width cs < 4294967296 →
      tableTotal select width cs acc = acc + exactTotal select width cs := by
  intro cs
  induction cs with
  | nil => intro acc _; simp [tableTotal, exactTotal]
  | cons c cs ih =>
    intro acc h
    simp only [tableTotal, exactTotal] at h ⊢
    by_cases hsel : select c = true
    · simp only [hsel, ↓reduceIte] at h ⊢
      rw [toUnsigned_of_lt (by omega), ih _ (by omega)]
      omega
    · simp only [hsel, Bool.false_eq_true, ↓reduceIte, Nat.zero_add] at h ⊢
      exact ih _ h

/-- When the running total does not wrap, the segments of an offset table lie between
`acc` and the total, and together they cover every position in between. -/
theorem offsetTable_exact (select : chunk R → Bool) (width : chunk R → Nat) :
    ∀ (cs : List (chunk R)) (k acc : Nat), acc + exactTotal select width cs < 4294967296 →
      (∀ e ∈ offsetTable select width cs k acc,
        acc ≤ e.2.1 ∧ e.2.1 + e.2.2 ≤ acc + exactTotal select width cs) ∧
      ∀ p : Nat, acc ≤ p → p < acc + exactTotal select width cs →
        covered (offsetTable select width cs k acc) p := by
  intro cs
  induction cs with
  | nil =>
    intro k acc _
    refine ⟨fun e he => by simp [offsetTable] at he, ?_⟩
    intro p h1 h2
    simp only [exactTotal] at h2
    omega
  | cons c cs ih =>
    intro k acc h
    simp only [offsetTable, exactTotal] at h ⊢
    by_cases hsel : select c = true
    · simp only [hsel, ↓reduceIte] at h ⊢
      have hred : toUnsigned (acc + width c) = acc + width c := toUnsigned_of_lt (by omega)
      rw [hred]
      obtain ⟨h1, h2⟩ := ih (k + 1) (acc + width c) (by omega)
      refine ⟨?_, ?_⟩
      · intro e he
        rcases List.mem_cons.mp he with heq | hmem
        · rw [heq]
          simp only
          omega
        · have := h1 e hmem
          omega
      · intro p hp1 hp2
        rw [covered_cons]
        by_cases hlt : p < acc + width c
        · exact Or.inl ⟨hp1, hlt⟩
        · exact Or.inr (h2 p (by omega) (by omega))
    · simp only [hsel, Bool.false_eq_true, ↓reduceIte, Nat.zero_add] at h ⊢
      exact ih (k + 1) acc h

/-- Round trip over an offset table: a gathered vector has the length of the total and
comes back unchanged; when the total does not wrap, a populated store can be gathered,
and every vector of the length of the total comes back unchanged. -/
theorem offsetTable_round_trip [Zero R] (select : chunk R → Bool) (width : chunk R → Nat)
    (chunks : List (chunk R)) (store : Store R) (id : Nat) :
    (∀ x : List R,
      gather store id (offsetTable select width chunks 0 0)
        (tableTotal select width chunks 0) = .ok x →
      x.length = tableTotal select width chunks 0 ∧
        ∃ store', distribute id x (offsetTable select width chunks 0 0) store = .ok store' ∧
          gather store' id (offsetTable select width chunks 0 0)
            (tableTotal select width chunks 0) = .ok x) ∧
    (exactTotal select width chunks < 4294967296 →
      (populated store id (offsetTable select width chunks 0 0) →
        ∃ x : List R, gather store id (offsetTable select width chunks 0 0)
          (tableTotal select width chunks 0) = .ok x) ∧
      ∀ x : List R, x.length = tableTotal select width chunks 0 →
        ∃ store', distribute id x (offsetTable select width chunks 0 0) store = .ok store' ∧
          gather store' id (offsetTable select width chunks 0 0)
            (tableTotal select width chunks 0) = .ok x) := by
  have hpair := offsetTable_pairwise select width chunks 0 0
  refine ⟨fun x hx => gather_round_trip store id _ _ x hpair hx, ?_⟩
  intro hexact
  have htot := tableTotal_exact select width chunks 0 (by omega)
  obtain ⟨hin, hcov⟩ := offsetTable_exact select width chunks 0 0 (by omega)
  rw [Nat.zero_add] at htot hin hcov
  refine ⟨?_, ?_⟩
  · intro hpop
    unfold gather
    apply gatherFrom_total
    intro e he
    refine ⟨hpop e he, ?_⟩
    rw [List.length_replicate, htot]
    exact (hin e he).2
  · intro x hx
    have hfit : ∀ e ∈ offsetTable select width chunks 0 0, e.2.1 + e.2.2 ≤ x.length := by
      intro e he
      rw [hx, htot]
      exact (hin e he).2
    obtain ⟨store', hs, _, hmine⟩ := distribute_ok id x _ store hfit
    obtain ⟨y, hy, hylen, hc, _⟩ := gatherFrom_segments store' id x
      (offsetTable select width chunks 0 0)
      (List.replicate (tableTotal select width chunks 0) 0)
      (by rw [List.length_replicate, hx]) (fun e he => ⟨hmine hpair e he, hfit e he⟩)
    refine ⟨store', hs, ?_⟩
    unfold gather
    rw [hy]
    congr 1
    apply List.ext_getElem?
    intro p
    by_cases hp : p < x.length
    · exact hc p (hcov p (Nat.zero_le _) (by rw [← htot, ← hx]; exact hp))
    · rw [List.getElem?_eq_none (by omega), List.getElem?_eq_none (by omega)]

/-! ### The offset of a state and the full Jacobians -/

/-- Lookup in a table with a first entry. -/
theorem lookupOffset_cons (e : Nat × Nat × Nat) (t : List (Nat × Nat × Nat)) (x : Nat) :
    lookupOffset (e :: t) x = if e.1 = x then e.2.1 else lookupOffset t x := by
  unfold lookupOffset
  rw [List.find?_cons]
  by_cases h : e.1 = x
  · have hb : (e.1 == x) = true := beq_iff_eq.mpr h
    rw [hb, if_pos h]
  · have hb : (e.1 == x) = false := beq_eq_false_iff_ne.mpr h
    rw [hb, if_neg h]

/-- The offset that the table gives a selected state is the running total of the widths
of the selected chunks before it. -/
theorem lookupOffset_offsetTable (select : chunk R → Bool) (width : chunk R → Nat) :
    ∀ (cs : List (chunk R)) (i acc k : Nat) (c : chunk R), cs[k]? = some c →
      select c = true →
      lookupOffset (offsetTable select width cs i acc) (i + k) =
        tableTotal select width (cs.take k) acc := by
  intro cs
  induction cs with
  | nil => intro i acc k c hk; simp at hk
  | cons d ds ih =>
    intro i acc k c hk hsel
    cases k with
    | zero =>
      simp only [List.getElem?_cons_zero, Option.some.injEq] at hk
      subst hk
      simp only [offsetTable, hsel, ↓reduceIte, List.take_zero, tableTotal, Nat.add_zero]
      rw [lookupOffset_cons, if_pos rfl]
    | succ k =>
      simp only [List.getElem?_cons_succ] at hk
      simp only [offsetTable, List.take_succ_cons, tableTotal]
      have hidx : i + (k + 1) = i + 1 + k := by omega
      by_cases hd : select d = true
      · simp only [hd, ↓reduceIte]
        rw [lookupOffset_cons, if_neg (by simp only; omega), hidx]
        exact ih (i + 1) _ k c hk hsel
      · simp only [hd, Bool.false_eq_true, ↓reduceIte]
        rw [hidx]
        exact ih (i + 1) acc k c hk hsel

/-- The exact sum of the widths up to a state, and its own width, are within the exact
sum over all chunks. -/
theorem exactTotal_take_le (select : chunk R → Bool) (width : chunk R → Nat) :
    ∀ (cs : List (chunk R)) (k : Nat) (c : chunk R), cs[k]? = some c →
      exactTotal select width (cs.take k) + (if select c then width c else 0) ≤
        exactTotal select width cs := by
  intro cs
  induction cs with
  | nil => intro k c hk; simp at hk
  | cons d ds ih =>
    intro k c hk
    cases k with
    | zero =>
      simp only [List.getElem?_cons_zero, Option.some.injEq] at hk
      subst hk
      simp only [List.take_zero, exactTotal]
      omega
    | succ k =>
      simp only [List.getElem?_cons_succ] at hk
      simp only [List.take_succ_cons, exactTotal]
      have := ih k c hk
      omega

/-- Rows, columns and coefficients of an accumulated sum of matrices. -/
theorem foldl_add {α : Type} [CommRing R] (g : α → Mat R) :
    ∀ (l : List α) (init : Mat R),
      (l.foldl (fun acc p => acc.add (g p)) init).rows = init.rows ∧
      (l.foldl (fun acc p => acc.add (g p)) init).cols = init.cols ∧
      ∀ r c : Nat, (l.foldl (fun acc p => acc.add (g p)) init).coeff r c =
        init.coeff r c + (l.map (fun p => (g p).coeff r c)).sum := by
  intro l
  induction l with
  | nil => intro init; simp
  | cons a l ih =>
    intro init
    obtain ⟨h1, h2, h3⟩ := ih (init.add (g a))
    simp only [List.foldl_cons, List.map_cons, List.sum_cons]
    refine ⟨h1, h2, ?_⟩
    intro r c
    rw [h3 r c]
    simp only [Mat.add]
    rw [add_assoc]

/-- One step of the computation of a full Jacobian. -/
theorem fullRec_succ [CommRing R] (size_m : Nat) (table : List (Nat × Nat × Nat))
    (chunks : List (chunk R)) (fuel k : Nat) (c : chunk R) (hk : chunks[k]? = some c) :
    fullRec size_m table chunks (fuel + 1) k =
      if c.master then Mat.selection (dim c) size_m (lookupOffset table k)
      else c.map.foldl
        (fun acc p => acc.add (p.2.J.mul (fullRec size_m table chunks fuel p.1)))
        (Mat.zero (dim c) size_m) := by
  rw [fullRec]
  simp only [hk]

/-- A handle that is not a state has the empty full Jacobian. -/
theorem fullRec_none [CommRing R] (size_m : Nat) (table : List (Nat × Nat × Nat))
    (chunks : List (chunk R)) (fuel k : Nat) (hk : chunks[k]? = none) :
    fullRec size_m table chunks fuel k = Mat.zero 0 size_m := by
  cases fuel with
  | zero => rw [fullRec]
  | succ fuel =>
    rw [fullRec]
    simp only [hk]

/-- The full Jacobian of a state does not depend on the fuel, once it exceeds the rank
of the state. -/
theorem fullRec_stable [CommRing R] (size_m : Nat) (table : List (Nat × Nat × Nat))
    (chunks : List (chunk R)) (rank : Nat → Nat)
    (hrank : ∀ (k : Nat) (c : chunk R), chunks[k]? = some c →
      ∀ p ∈ c.map, rank p.1 < rank k) :
    ∀ (f g k : Nat), rank k < f → rank k < g →
      fullRec size_m table chunks f k = fullRec size_m table chunks g k := by
  intro f
  induction f with
  | zero => intro g k h; omega
  | succ f ih =>
    intro g k hf hg
    cases g with
    | zero => omega
    | succ g =>
      cases hk : chunks[k]? with
      | none => rw [fullRec_none _ _ _ _ _ hk, fullRec_none _ _ _ _ _ hk]
      | some c =>
        rw [fullRec_succ _ _ _ _ _ c hk, fullRec_succ _ _ _ _ _ c hk]
        by_cases hm : c.master = true
        · rw [if_pos hm, if_pos hm]
        · rw [if_neg hm, if_neg hm]
          apply List.foldl_ext
          intro acc p hp
          have := hrank k c hk p hp
          rw [ih g p.1 (by omega) (by omega)]

/-- The full Jacobian that `process` returns is the one computed with as much fuel as
there are states. -/
theorem fullJacobian_eq [CommRing R] (chunks : List (chunk R)) (k : Nat) :
    fullJacobian chunks k =
      fullRec (process chunks).size_m (process chunks).master chunks chunks.length k := by
  unfold fullJacobian
  have hfull : (process chunks).full = (List.range chunks.length).map
      (fullRec (process chunks).size_m (process chunks).master chunks chunks.length) := rfl
  rw [hfull, List.getD_eq_getElem?_getD, List.getElem?_map]
  by_cases hk : k < chunks.length
  · rw [List.getElem?_range hk]
    rfl
  · rw [List.getElem?_eq_none (by rw [List.length_range]; omega)]
    rw [fullRec_none _ _ _ _ _ (List.getElem?_eq_none (by omega))]
    rfl

/-- Dimensions of the full Jacobian of a state. -/
theorem fullJacobian_dims [CommRing R] (chunks : List (chunk R)) (k : Nat) (c : chunk R)
    (hk : chunks[k]? = some c) :
    (fullJacobian chunks k).rows = dim c ∧
      (fullJacobian chunks k).cols = (process chunks).size_m := by
  have hlt : k < chunks.length := by
    by_contra h
    rw [List.getElem?_eq_none (by omega)] at hk
    cases hk
  obtain ⟨f, hf⟩ : ∃ f, chunks.length = f + 1 := ⟨chunks.length - 1, by omega⟩
  rw [fullJacobian_eq, hf, fullRec_succ _ _ _ _ _ c hk]
  by_cases hm : c.master = true
  · rw [if_pos hm]
    exact ⟨rfl, rfl⟩
  · rw [if_neg hm]
    obtain ⟨h1, h2, _⟩ := foldl_add
      (fun p : Nat × Mapped R => p.2.J.mul (fullRec (process chunks).size_m
        (process chunks).master chunks f p.1)) c.map (Mat.zero (dim c) (process chunks).size_m)
    exact ⟨h1, h2⟩

/-- The full Jacobian of a master state is the selection matrix at the running total
of the widths of the master states before it. -/
theorem fullJacobian_master [CommRing R] (chunks : List (chunk R)) (k : Nat) (c : chunk R)
    (hk : chunks[k]? = some c) (hm : c.master = true) :
    fullJacobian chunks k =
      Mat.selection (dim c) (process chunks).size_m (masterOffset chunks k) := by
  have hlt : k < chunks.length := by
    by_contra h
    rw [List.getElem?_eq_none (by omega)] at hk
    cases hk
  obtain ⟨f, hf⟩ : ∃ f, chunks.length = f + 1 := ⟨chunks.length - 1, by omega⟩
  rw [fullJacobian_eq, hf, fullRec_succ _ _ _ _ _ c hk, if_pos hm]
  have hoff := lookupOffset_offsetTable chunk.master dim chunks 0 0 k c hk hm
  rw [Nat.zero_add] at hoff
  have hmaster : (process chunks).master = offsetTable chunk.master dim chunks 0 0 := rfl
  rw [hmaster, hoff]
  rfl

/-- In an acyclic graph the full Jacobian of a mapped state is the accumulated sum of
the products of its edge Jacobians with the full Jacobians of its inputs. -/
theorem fullJacobian_mapped [CommRing R] (chunks : List (chunk R)) (hacyc : Acyclic chunks)
    (k : Nat) (c : chunk R) (hk : chunks[k]? = some c) (hm : c.master = false) :
    fullJacobian chunks k =
      c.map.foldl (fun acc p => acc.add (p.2.J.mul (fullJacobian chunks p.1)))
        (Mat.zero (dim c) (process chunks).size_m) := by
  obtain ⟨rank, hrank⟩ := hacyc
  obtain ⟨f, hf⟩ : ∃ f, chunks.length = f + 1 :=
    ⟨chunks.length - 1, by have := (hrank k c hk).1; omega⟩
  rw [fullJacobian_eq, hf, fullRec_succ _ _ _ _ _ c hk, if_neg (by rw [hm]; decide)]
  apply List.foldl_ext
  intro acc p hp
  have h1 := (hrank k c hk).1
  have h2 := (hrank k c hk).2 p hp
  rw [fullJacobian_eq, hf]
  rw [fullRec_stable _ _ chunks rank (fun k c hk => (hrank k c hk).2) f (f + 1) p.1
    (by omega) (by omega)]

/-- Coefficients of the full Jacobian of a mapped state: the sum over its inputs. -/
theorem fullJacobian_sum [CommRing R] (chunks : List (chunk R)) (hacyc : Acyclic chunks)
    (k : Nat) (c : chunk R) (hk : chunks[k]? = some c) (hm : c.master = false)
    (r col : Nat) :
    (fullJacobian chunks k).coeff r col =
      (c.map.map (fun p => (p.2.J.mul (fullJacobian chunks p.1)).coeff r col)).sum := by
  rw [fullJacobian_mapped chunks hacyc k c hk hm]
  obtain ⟨_, _, h⟩ := foldl_add
    (fun p : Nat × Mapped R => p.2.J.mul (fullJacobian chunks p.1)) c.map
    (Mat.zero (dim c) (process chunks).size_m)
  rw [h r col]
  simp only [Mat.zero, zero_add]

/-- A product with a selection matrix reads one column of the left factor. -/
theorem mul_selection_coeff [CommRing R] (J : Mat R) (n size_m off r col : Nat)
    (hJ : J.cols = n) :
    (J.mul (Mat.selection n size_m off)).coeff r col =
      if off ≤ col ∧ col < off + n then J.coeff r (col - off) else 0 := by
  simp only [Mat.mul, Mat.selection, hJ]
  by_cases h : off ≤ col ∧ col < off + n
  · rw [if_pos h, Finset.sum_eq_single (col - off)]
    · rw [if_pos ⟨by omega, by omega⟩, mul_one]
    · intro i _ hi
      rw [if_neg (by omega), mul_zero]
    · intro hnot
      exact absurd (Finset.mem_range.mpr (by omega)) hnot
  · rw [if_neg h]
    apply Finset.sum_eq_zero
    intro i hi
    have := Finset.mem_range.mp hi
    rw [if_neg (by omega), mul_zero]

/-- A state mapped from one master state: its full Jacobian is the edge Jacobian placed
at the column offset of the master state. -/
theorem fullJacobian_once [CommRing R] (chunks : List (chunk R)) (hacyc : Acyclic chunks)
    (a b : Nat) (A B : chunk R) (J : Mapped R) (ha : chunks[a]? = some A)
    (hb : chunks[b]? = some B) (hA : A.master = true) (hB : B.map = [(a, J)])
    (hJ : J.J.cols = dim A) (r col : Nat) :
    (fullJacobian chunks b).coeff r col =
      if masterOffset chunks a ≤ col ∧ col < masterOffset chunks a + dim A then
        J.J.coeff r (col - masterOffset chunks a)
      else 0 := by
  have hm : B.master = false := by simp [chunk.master, hB]
  rw [fullJacobian_sum chunks hacyc b B hb hm, hB]
  simp only [List.map_cons, List.map_nil, List.sum_cons, List.sum_nil, add_zero]
  rw [fullJacobian_master chunks a A ha hA]
  exact mul_selection_coeff J.J (dim A) _ _ r col hJ

/-- A product whose right factor is a matrix placed at a column offset. -/
theorem mul_placed_coeff [CommRing R] (K J F : Mat R) (off n r col : Nat)
    (hF : ∀ i : Nat, F.coeff i col =
      if off ≤ col ∧ col < off + n then J.coeff i (col - off) else 0) :
    (K.mul F).coeff r col =
      if off ≤ col ∧ col < off + n then (K.mul J).coeff r (col - off) else 0 := by
  simp only [Mat.mul]
  by_cases h : off ≤ col ∧ col < off + n
  · rw [if_pos h]
    apply Finset.sum_congr rfl
    intro i _
    rw [hF i, if_pos h]
  · rw [if_neg h]
    apply Finset.sum_eq_zero
    intro i _
    rw [hF i, if_neg h, mul_zero]

/-- The chain `A → B → C`: the full Jacobian of `C` is `Jbc * Jab` at the column
offset of `A`. -/
theorem fullJacobian_chain [CommRing R] (chunks : List (chunk R)) (hacyc : Acyclic chunks)
    (a b c : Nat) (A B C : chunk R) (Jab Jbc : Mapped R) (ha : chunks[a]? = some A)
    (hb : chunks[b]? = some B) (hc : chunks[c]? = some C) (hA : A.master = true)
    (hB : B.map = [(a, Jab)]) (hC : C.map = [(b, Jbc)]) (hJ : Jab.J.cols = dim A)
    (r col : Nat) :
    (fullJacobian chunks c).coeff r col =
      if masterOffset chunks a ≤ col ∧ col < masterOffset chunks a + dim A then
        (Jbc.J.mul Jab.J).coeff r (col - masterOffset chunks a)
      else 0 := by
  have hm : C.master = false := by simp [chunk.master, hC]
  rw [fullJacobian_sum chunks hacyc c C hc hm, hC]
  simp only [List.map_cons, List.map_nil, List.sum_cons, List.sum_nil, add_zero]
  exact mul_placed_coeff Jbc.J Jab.J _ _ (dim A) r col
    (fun i => fullJacobian_once chunks hacyc a b A B Jab ha hb hA hB hJ i col)

/-- The diamond `A → B1 → C`, `A → B2 → C`: the contributions of the two paths are
summed at the column offset of `A`. -/
theorem fullJacobian_diamond [CommRing R] (chunks : List (chunk R)) (hacyc : Acyclic chunks)
    (a b1 b2 c : Nat) (A B1 B2 C : chunk R) (J1 J2 K1 K2 : Mapped R)
    (ha : chunks[a]? = some A) (hb1 : chunks[b1]? = some B1) (hb2 : chunks[b2]? = some B2)
    (hc : chunks[c]? = some C) (hA : A.master = true) (hB1 : B1.map = [(a, J1)])
    (hB2 : B2.map = [(a, J2)]) (hC : C.map = [(b1, K1), (b2, K2)])
    (h1 : J1.J.cols = dim A) (h2 : J2.J.cols = dim A) (r col : Nat) :
    (fullJacobian chunks c).coeff r col =
      if masterOffset chunks a ≤ col ∧ col < masterOffset chunks a + dim A then
        (K1.J.mul J1.J).coeff r (col - masterOffset chunks a) +
          (K2.J.mul J2.J).coeff r (col - masterOffset chunks a)
      else 0 := by
  have hm : C.master = false := by simp [chunk.master, hC]
  rw [fullJacobian_sum chunks hacyc c C hc hm, hC]
  simp only [List.map_cons, List.map_nil, List.sum_cons, List.sum_nil, add_zero]
  rw [mul_placed_coeff K1.J J1.J _ _ (dim A) r col
      (fun i => fullJacobian_once chunks hacyc a b1 A B1 J1 ha hb1 hA hB1 h1 i col),
    mul_placed_coeff K2.J J2.J _ _ (dim A) r col
      (fun i => fullJacobian_once chunks hacyc a b2 A B2 J2 ha hb2 hA hB2 h2 i col)]
  by_cases h : masterOffset chunks a ≤ col ∧ col < masterOffset chunks a + dim A
  · rw [if_pos h, if_pos h, if_pos h]
  · rw [if_neg h, if_neg h, if_neg h, add_zero]

/-- When the master total does not wrap, the offset of a master state is the exact sum
of the widths of the master states before it, and its columns lie within `size_m`. -/
theorem masterOffset_exact [CommRing R] (chunks : List (chunk R))
    (hfit : exactTotal chunk.master dim chunks < 4294967296) :
    (process chunks).size_m = exactTotal chunk.master dim chunks ∧
    ∀ (k : Nat) (c : chunk R), chunks[k]? = some c → c.master = true →
      masterOffset chunks k = exactTotal chunk.master dim (chunks.take k) ∧
      masterOffset chunks k + dim c ≤ (process chunks).size_m := by
  have hsize : (process chunks).size_m = exactTotal chunk.master dim chunks := by
    have := tableTotal_exact chunk.master dim chunks 0 (by omega)
    rw [Nat.zero_add] at this
    exact this
  refine ⟨hsize, ?_⟩
  intro k c hk hm
  have hle := exactTotal_take_le chunk.master dim chunks k c hk
  rw [if_pos hm] at hle
  have hoff : masterOffset chunks k = exactTotal chunk.master dim (chunks.take k) := by
    unfold masterOffset
    rw [tableTotal_exact chunk.master dim (chunks.take k) 0 (by omega), Nat.zero_add]
  rw [hoff, hsize]
  exact ⟨rfl, hle⟩

/-- A list of chunks in topological order: the inputs of the chunk at position `k`
have handles below `i + k`. -/
theorem ordered_inputs :
    ∀ (cs : List (chunk R)) (i : Nat), ordered i cs = true →
      ∀ (k : Nat) (c : chunk R), cs[k]? = some c → ∀ p ∈ c.map, p.1 < i + k := by
  intro cs
  induction cs with
  | nil => intro i _ k c hk; simp at hk
  | cons d ds ih =>
    intro i hord k c hk p hp
    simp only [ordered, Bool.and_eq_true, List.all_eq_true, decide_eq_true_eq] at hord
    cases k with
    | zero =>
      simp only [List.getElem?_cons_zero, Option.some.injEq] at hk
      subst hk
      exact hord.1 p hp
    | succ k =>
      simp only [List.getElem?_cons_succ] at hk
      have := ih (i + 1) hord.2 k c hk p hp
      omega

/-- Chunks listed in topological order form an acyclic graph. -/
theorem acyclic_of_ordered (chunks : List (chunk R)) (hord : ordered 0 chunks = true) :
    Acyclic chunks := by
  refine ⟨fun k => k, ?_⟩
  intro k c hk
  beta_reduce
  refine ⟨?_, ?_⟩
  · by_contra h
    rw [List.getElem?_eq_none (by omega)] at hk
    cases hk
  · intro p hp
    have := ordered_inputs chunks 0 hord k c hk p hp
    omega

/-- The synthetic chain is acyclic, although `C` and `B` are listed before their
inputs. -/
theorem chainChunks_acyclic : Acyclic chainChunks := by
  refine ⟨fun k => if k = 0 then 2 else if k = 2 then 1 else 0, ?_⟩
  intro k c hk
  rcases k with _ | _ | _ | _ | k
  · simp only [chainChunks, List.getElem?_cons_zero, Option.some.injEq] at hk
    subst hk
    refine ⟨by decide, ?_⟩
    intro p hp
    simp only [simpleChunk, List.mem_singleton] at hp
    subst hp
    decide
  · simp only [chainChunks, List.getElem?_cons_succ, List.getElem?_cons_zero,
      Option.some.injEq] at hk
    subst hk
    refine ⟨by decide, ?_⟩
    intro p hp
    simp [simpleChunk] at hp
  · simp only [chainChunks, List.getElem?_cons_succ, List.getElem?_cons_zero,
      Option.some.injEq] at hk
    subst hk
    refine ⟨by decide, ?_⟩
    intro p hp
    simp only [simpleChunk, List.mem_singleton] at hp
    subst hp
    decide
  · simp only [chainChunks, List.getElem?_cons_succ, List.getElem?_cons_zero,
      Option.some.injEq] at hk
    subst hk
    refine ⟨by decide, ?_⟩
    intro p hp
    simp [simpleChunk] at hp
  · simp [chainChunks] at hk

end AssemblyVisitor

/-- C6: for an acyclic assembly graph whose master total does not wrap in the
`unsigned` `size_m`, `process` gives every state a full Jacobian of its dimension and
`size_m` columns: for a master state the selection matrix placing the identity at its
global master column offset (the sum of the dimensions of the master states before it,
its columns lying within `size_m`), and for every other state `B` the sum over its
inputs `Ai` of `J_{B,Ai} * Full(Ai)`.  Hence for a chain `A → B → C` the full Jacobian
of `C` is `Jbc * Jab` at the columns of `A` and zero elsewhere, and in a diamond the
contributions of the two paths are summed. -/
theorem process_composition {R : Type} [CommRing R] (chunks : List (chunk R))
    (hacyc : Acyclic chunks) (hfit : exactTotal chunk.master dim chunks < 4294967296) :
    (process chunks).size_m = exactTotal chunk.master dim chunks ∧
    (∀ (k : Nat) (c : chunk R), chunks[k]? = some c →
      (fullJacobian chunks k).rows = dim c ∧
      (fullJacobian chunks k).cols = (process chunks).size_m ∧
      (c.master = true →
        masterOffset chunks k = exactTotal chunk.master dim (chunks.take k) ∧
        masterOffset chunks k + dim c ≤ (process chunks).size_m ∧
        fullJacobian chunks k =
          Mat.selection (dim c) (process chunks).size_m (masterOffset chunks k)) ∧
      (c.master = false →
        fullJacobian chunks k =
          c.map.foldl (fun acc p => acc.add (p.2.J.mul (fullJacobian chunks p.1)))
            (Mat.zero (dim c) (process chunks).size_m) ∧
        ∀ r col : Nat, (fullJacobian chunks k).coeff r col =
          (c.map.map (fun p => (p.2.J.mul (fullJacobian chunks p.1)).coeff r col)).sum)) ∧
    (∀ (a b c : Nat) (A B C : chunk R) (Jab Jbc : Mapped R), chunks[a]? = some A →
      chunks[b]? = some B → chunks[c]? = some C → A.master = true → B.map = [(a, Jab)] →
      C.map = [(b, Jbc)] → Jab.J.cols = dim A →
      ∀ r col : Nat, (fullJacobian chunks c).coeff r col =
        if masterOffset chunks a ≤ col ∧ col < masterOffset chunks a + dim A then
          (Jbc.J.mul Jab.J).coeff r (col - masterOffset chunks a)
        else 0) ∧
    (∀ (a b1 b2 c : Nat) (A B1 B2 C : chunk R) (J1 J2 K1 K2 : Mapped R),
      chunks[a]? = some A → chunks[b1]? = some B1 → chunks[b2]? = some B2 →
      chunks[c]? = some C → A.master = true → B1.map = [(a, J1)] → B2.map = [(a, J2)] →
      C.map = [(b1, K1), (b2, K2)] → J1.J.cols = dim A → J2.J.cols = dim A →
      ∀ r col : Nat, (fullJacobian chunks c).coeff r col =
        if masterOffset chunks a ≤ col ∧ col < masterOffset chunks a + dim A then
          (K1.J.mul J1.J).coeff r (col - masterOffset chunks a) +
            (K2.J.mul J2.J).coeff r (col - masterOffset chunks a)
        else 0) :=
  ⟨(masterOffset_exact chunks hfit).1,
    fun k c hk => ⟨(fullJacobian_dims chunks k c hk).1, (fullJacobian_dims chunks k c hk).2,
      fun hm => ⟨((masterOffset_exact chunks hfit).2 k c hk hm).1,
        ((masterOffset_exact chunks hfit).2 k c hk hm).2,
        fullJacobian_master chunks k c hk hm⟩,
      fun hm => ⟨fullJacobian_mapped chunks hacyc k c hk hm,
        fun r col => fullJacobian_sum chunks hacyc k c hk hm r col⟩⟩,
    fun a b c A B C Jab Jbc ha hb hc hA hB hC hJ r col =>
      fullJacobian_chain chunks hacyc a b c A B C Jab Jbc ha hb hc hA hB hC hJ r col,
    fun a b1 b2 c A B1 B2 C J1 J2 K1 K2 ha hb1 hb2 hc hA hB1 hB2 hC h1 h2 r col =>
      fullJacobian_diamond chunks hacyc a b1 b2 c A B1 B2 C J1 J2 K1 K2 ha hb1 hb2 hc hA
        hB1 hB2 hC h1 h2 r col⟩

/-- C6, the synthetic 2x2 chain, listed as `C`, a master state of dimension 1, `B`,
`A`: with `Jab = [[1, 2], [3, 4]]` and `Jbc = [[0, 1], [1, 1]]` the full Jacobian of
`C` is `[[0, 3, 4], [0, 4, 6]]`, the product `Jbc * Jab` at the column offset 1 of
`A`. -/
theorem process_composition_witness :
    masterOffset chainChunks 3 = 1 ∧
      (fullJacobian chainChunks 0).coeff 0 0 = 0 ∧ (fullJacobian chainChunks 0).coeff 0 1 = 3 ∧
      (fullJacobian chainChunks 0).coeff 0 2 = 4 ∧ (fullJacobian chainChunks 0).coeff 1 0 = 0 ∧
      (fullJacobian chainChunks 0).coeff 1 1 = 4 ∧ (fullJacobian chainChunks 0).coeff 1 2 = 6 := by
  have h := (process_composition chainChunks chainChunks_acyclic (by decide)).2.2.1 3 2 0
    (simpleChunk 2 true [] []) (simpleChunk 2 true [(3, chainJab)] [])
    (simpleChunk 2 true [(2, chainJbc)] []) chainJab chainJbc rfl rfl rfl rfl rfl rfl rfl
  refine ⟨by decide, ?_, ?_, ?_, ?_, ?_, ?_⟩
  · rw [h 0 0]; decide
  · rw [h 0 1]; decide
  · rw [h 0 2]; decide
  · rw [h 1 0]; decide
  · rw [h 1 1]; decide
  · rw [h 1 2]; decide

/-- C7: a vector `x` obtained by gathering the master vectors has length `size_m`,
`distribute_master` scatters it without fault and gathering again gives `x`; the same
holds for the compliant vectors, `distribute_compliant` and `size_c`.  When the sizes
do not wrap in their `unsigned` variables and the visitor is populated, the gathers do
return such vectors, and every vector of length `size_m` (resp. `size_c`) comes back
unchanged. -/
theorem distribute_gather_round_trip {R : Type} [CommRing R] (chunks : List (chunk R))
    (store : Store R) (id : Nat)
    (hm : exactTotal chunk.master dim chunks < 4294967296)
    (hc : exactTotal chunk.compliant phiSize chunks < 4294967296)
    (hpm : populated store id (process chunks).master)
    (hpc : populated store id (process chunks).compliant) :
    ((∃ x : List R, gather_master chunks store id = .ok x) ∧
      ∀ x : List R, gather_master chunks store id = .ok x →
        x.length = (process chunks).size_m ∧
        ∃ store', distribute_master chunks store id x = .ok store' ∧
          gather_master chunks store' id = .ok x) ∧
    ((∃ x : List R, gather_compliant chunks store id = .ok x) ∧
      ∀ x : List R, gather_compliant chunks store id = .ok x →
        x.length = (process chunks).size_c ∧
        ∃ store', distribute_compliant chunks store id x = .ok store' ∧
          gather_compliant chunks store' id = .ok x) ∧
    (∀ x : List R, x.length = (process chunks).size_m →
      ∃ store', distribute_master chunks store id x = .ok store' ∧
        gather_master chunks store' id = .ok x) ∧
    (∀ x : List R, x.length = (process chunks).size_c →
      ∃ store', distribute_compliant chunks store id x = .ok store' ∧
        gather_compliant chunks store' id = .ok x) ∧
    (process chunks).size_m = exactTotal chunk.master dim chunks ∧
    (process chunks).size_c = exactTotal chunk.compliant phiSize chunks := by
  obtain ⟨hm1, hm2⟩ := offsetTable_round_trip chunk.master dim chunks store id
  obtain ⟨hc1, hc2⟩ := offsetTable_round_trip chunk.compliant phiSize chunks store id
  have htm := tableTotal_exact chunk.master dim chunks 0 (by omega)
  have htc := tableTotal_exact chunk.compliant phiSize chunks 0 (by omega)
  rw [Nat.zero_add] at htm htc
  exact ⟨⟨(hm2 hm).1 hpm, hm1⟩, ⟨(hc2 hc).1 hpc, hc1⟩, (hm2 hm).2, (hc2 hc).2, htm, htc⟩

/-- C7, an instance: a master state of dimension 2, a compliant state mapped from it,
and a master state of dimension 1; the gathered master vector is `[1, 2, 3]` and comes
back unchanged. -/
theorem distribute_gather_round_trip_witness :
    gather_master sampleChunks sampleStore 1 = .ok [1, 2, 3] ∧
      ∃ store', distribute_master sampleChunks sampleStore 1 [1, 2, 3] = .ok store' ∧
        gather_master sampleChunks store' 1 = .ok [1, 2, 3] :=
  ⟨rfl,
    ((distribute_gather_round_trip sampleChunks sampleStore 1 (by decide) (by decide)
      (by unfold populated; decide) (by unfold populated; decide)).1.2 [1, 2, 3] rfl).2⟩

end Compliant
